import Mathlib

/-!
Verification of the AeroSearch text-retrieval engine.

This file gives a shallow embedding, in Lean 4, of the core components of the
repository: the tokenizer/segmenter (`src/preprocessing.py`), the positional
inverted index (`src/index.py`), the boolean/proximity query evaluator
(`src/boolean_query.py`) and the BM25 ranker (`src/bm25.py`), together with
theorems settling the specification claims about them.

Modelling conventions:
- Python strings are modelled over their ASCII fragment (all corpus and query
  data in the repository is ASCII); `str.lower`/`str.upper` become
  `Char.toLower`/`Char.toUpper` maps.
- Python `list`s become `List`, Python `dict`s become association lists with
  insertion-order semantics (`dset` models `d[k] = v`, `dappend` models
  `d.setdefault(k, []).append(x)` / `defaultdict(list)` appends).
- Python set-of-int values become `Finset ℕ`.
- A Python `IndexError` (pop from an empty list) is modelled by `Option`:
  evaluation returns `none` exactly where the Python raises.
- Python floats are modelled as exact rationals `ℚ`; `math.log` is kept
  abstract as a function parameter `logF : ℚ → ℚ` in the BM25 ranker model
  (the ranking claims under study are about ordering and zero-contributions,
  which do not depend on the value of the logarithm), and as `Real.log` in
  the real-valued idf model used for the numerical idf claim.
-/

namespace AeroSearch

/-! ## Character helpers (ASCII models of Python predicates) -/

/-- Python regex `\s` on ASCII: space, tab, newline, carriage return,
vertical tab, form feed. -/
def isWsChar (c : Char) : Bool :=
  c = ' ' ∨ c = '\t' ∨ c = '\n' ∨ c = '\r' ∨ c = '\x0b' ∨ c = '\x0c'

/-- Character class `[a-z0-9]` with `re.IGNORECASE`, as used by the word
tokenizer regex of `preprocessing.py` (codepoint ranges `a`-`z`, `A`-`Z`,
`0`-`9`). -/
def isAlnumCI (c : Char) : Bool :=
  (97 ≤ c.toNat ∧ c.toNat ≤ 122) ∨ (65 ≤ c.toNat ∧ c.toNat ≤ 90)
    ∨ (48 ≤ c.toNat ∧ c.toNat ≤ 57)

/-- Character class `[0-9]`. -/
def isDigitChar (c : Char) : Bool :=
  48 ≤ c.toNat ∧ c.toNat ≤ 57

/-- Character class `[a-z0-9\-]` of the query tokenizer regex in
`boolean_query.py` (the query string is lowercased before matching). -/
def isTermChar (c : Char) : Bool :=
  (97 ≤ c.toNat ∧ c.toNat ≤ 122) ∨ (48 ≤ c.toNat ∧ c.toNat ≤ 57) ∨ c = '-'

/-- Python `str.strip()` on a character list (ASCII whitespace). -/
def stripWs (l : List Char) : List Char :=
  ((l.dropWhile isWsChar).reverse.dropWhile isWsChar).reverse

/-! ## Sentence splitting: `preprocessing.sent_tokenize`

Python: `_SENT_SPLIT = re.compile(r'(?<=[.!?])\s+')` and
`sent_tokenize(text) = [] if not text.strip() else _SENT_SPLIT.split(text.strip())`.
The split scanner walks the characters; a maximal whitespace run immediately
preceded by `.`, `!` or `?` is a sentence boundary. -/

/-- Is this character one of the sentence-ending marks `.`, `!`, `?`. -/
def isSentEnd (c : Char) : Bool :=
  c = '.' ∨ c = '!' ∨ c = '?'

/-- Scanner for `re.split(r'(?<=[.!?])\s+', ·)`: `acc` is the sentence built
so far, `prev` the previously scanned character (the lookbehind). Each step
consumes at least one character, so `fuel = length` always suffices; the
recursion is structural on the fuel so that concrete queries evaluate inside
the kernel. -/
def sentGoF : ℕ → List Char → Option Char → List Char → List (List Char)
  | _, acc, _, [] => [acc]
  | 0, acc, _, _ :: _ => [acc]
  | fuel + 1, acc, prev, c :: cs =>
    if isWsChar c && (match prev with | some p => isSentEnd p | none => false) then
      acc :: sentGoF fuel [] none (List.dropWhile isWsChar (c :: cs))
    else
      sentGoF fuel (acc ++ [c]) (some c) cs

/-- `preprocessing.sent_tokenize`. -/
def sent_tokenize (text : String) : List String :=
  let t := stripWs text.data
  if t.isEmpty then [] else (sentGoF t.length [] none t).map List.asString

/-! ## Word tokenization: `preprocessing.word_tokenize`

Python: `_TOKEN = re.compile(r"[a-z0-9]+(?:['-][a-z0-9]+)?", re.IGNORECASE)`,
`word_tokenize(text) = [t.lower() for t in _TOKEN.findall(text)]`.
A match is a maximal alphanumeric run, optionally followed by exactly one
apostrophe-or-hyphen joiner and a second alphanumeric run. -/

/-- Extract one word-token match starting at the head of `l` (which must be
alphanumeric); returns the match and the remaining characters. -/
def grabTok (l : List Char) : List Char × List Char :=
  match List.dropWhile isAlnumCI l with
  | j :: rest2 =>
    if j = '\'' ∨ j = '-' then
      match rest2 with
      | d :: _ =>
        if isAlnumCI d then
          (l.takeWhile isAlnumCI ++ j :: rest2.takeWhile isAlnumCI, rest2.dropWhile isAlnumCI)
        else (l.takeWhile isAlnumCI, List.dropWhile isAlnumCI l)
      | [] => (l.takeWhile isAlnumCI, List.dropWhile isAlnumCI l)
    else (l.takeWhile isAlnumCI, List.dropWhile isAlnumCI l)
  | [] => (l.takeWhile isAlnumCI, [])

/-- The scanner behind `_TOKEN.findall`: tries a match at each position,
skipping non-matching characters (fuel-structural; a successful match always
consumes at least one character, so `fuel = length` suffices). -/
def wtAuxF : ℕ → List Char → List (List Char)
  | _, [] => []
  | 0, _ :: _ => []
  | fuel + 1, c :: cs =>
    if isAlnumCI c then
      (grabTok (c :: cs)).1 :: wtAuxF fuel (grabTok (c :: cs)).2
    else wtAuxF fuel cs

/-- `preprocessing.word_tokenize` (with the default `lower=True`). -/
def word_tokenize (text : String) : List String :=
  (wtAuxF text.data.length text.data).map (fun t => (t.map Char.toLower).asString)

/-- The module-level stopword set `preprocessing.STOPWORDS`. -/
def STOPWORDS : List String :=
  ["the", "a", "an", "and", "or", "but", "of", "to", "in", "for", "on", "at", "by", "with",
   "as", "is", "was", "were", "be", "been", "being", "from", "that", "this", "it", "its",
   "into", "over", "after", "before", "than", "then", "so", "such"]

/-- `preprocessing.preprocess`: returns `(flat_tokens, sent_tokens)`. When
there are no sentences the Python returns `(toks, [toks])`; otherwise the
flat list is the concatenation of the per-sentence token lists. -/
def preprocess (text : String) : List String × List (List String) :=
  let sents := sent_tokenize text
  if sents.isEmpty then
    let toks := (word_tokenize text).filter (fun t => ¬ STOPWORDS.contains t)
    (toks, [toks])
  else
    let st := sents.map (fun s => (word_tokenize s).filter (fun t => ¬ STOPWORDS.contains t))
    (st.flatten, st)

/-! ## Association-list models of Python dicts -/

/-- Lookup in an association list (Python `d.get(k)` / `k in d`; keys are
unique in every dict built below). -/
def dlookup {β : Type} (k : String) : List (String × β) → Option β
  | [] => none
  | (k', v) :: rest => if k' = k then some v else dlookup k rest

/-- Lookup with a `Nat` key. -/
def nlookup {β : Type} (k : ℕ) : List (ℕ × β) → Option β
  | [] => none
  | (k', v) :: rest => if k' = k then some v else nlookup k rest

/-- Python `d[k] = v`: replace in place, or append a new entry. -/
def nset {β : Type} (k : ℕ) (v : β) : List (ℕ × β) → List (ℕ × β)
  | [] => [(k, v)]
  | (k', v') :: rest => if k' = k then (k, v) :: rest else (k', v') :: nset k v rest

/-- Python `defaultdict(list)`: `d[k].append(x)` (string keys). -/
def dappend {β : Type} (k : String) (x : β) : List (String × List β) → List (String × List β)
  | [] => [(k, [x])]
  | (k', l) :: rest => if k' = k then (k', l ++ [x]) :: rest else (k', l) :: dappend k x rest

/-- Python `d.setdefault(k, []).append(x)` (`Nat` keys). -/
def nappend {β : Type} (k : ℕ) (x : β) : List (ℕ × List β) → List (ℕ × List β)
  | [] => [(k, [x])]
  | (k', l) :: rest => if k' = k then (k', l ++ [x]) :: rest else (k', l) :: nappend k x rest

/-- Python `dict(pairs)` lookup with last-occurrence-wins semantics, as used
for `dict(postings[t])` and the `posA = {d: set(p) for d, p in A}`
comprehensions (`Nat` keys). -/
def lastLookup {β : Type} (k : ℕ) (l : List (ℕ × β)) : Option β :=
  nlookup k l.reverse

/-! ## Inverted index: `index.InvertedIndex` -/

/-- A posting is `(doc_id, [positions])`; `postings` maps a term to its
posting list; `sent_bounds` stores per-document `(start, end)` inclusive
sentence boundaries (as Python ints, since an empty sentence yields
`end = start - 1`). -/
structure InvIndex where
  postings : List (String × List (ℕ × List ℕ))
  doc_len : List (ℕ × ℕ)
  num_docs : ℕ
  sent_bounds : List (ℕ × List (ℤ × ℤ))
deriving DecidableEq

/-- The per-document positions map: walk `flat` with a position counter,
appending each position to its token's list (`positions_by_term`). -/
def pbtGo (acc : List (String × List ℕ)) (pos : ℕ) : List String → List (String × List ℕ)
  | [] => acc
  | t :: rest => pbtGo (dappend t pos acc) (pos + 1) rest

def positionsByTerm (flat : List String) : List (String × List ℕ) :=
  pbtGo [] 0 flat

/-- Sentence boundaries in token-position space: for each sentence of length
`n` starting at cursor `c`, the pair `(c, c + n - 1)`. -/
def boundsGo (c : ℤ) : List (List String) → List (ℤ × ℤ)
  | [] => []
  | s :: rest => (c, c + s.length - 1) :: boundsGo (c + s.length) rest

/-- One iteration of the document loop in `InvertedIndex.build`. -/
def addDoc (idx : InvIndex) (doc_id : ℕ) (text : String) : InvIndex :=
  let fs := preprocess text
  { postings := (positionsByTerm fs.1).foldl
      (fun P tp => dappend tp.1 (doc_id, tp.2) P) idx.postings
    doc_len := nset doc_id fs.1.length idx.doc_len
    num_docs := idx.num_docs + 1
    sent_bounds := nset doc_id (boundsGo 0 fs.2) idx.sent_bounds }

/-- Stable insertion into a list sorted ascending by doc id (model of the
stable Python `list.sort(key=lambda x: x[0])`). -/
def insertByDoc (x : ℕ × List ℕ) : List (ℕ × List ℕ) → List (ℕ × List ℕ)
  | [] => [x]
  | y :: ys => if y.1 ≤ x.1 then y :: insertByDoc x ys else x :: y :: ys

def sortByDoc (l : List (ℕ × List ℕ)) : List (ℕ × List ℕ) :=
  l.foldl (fun acc x => insertByDoc x acc) []

/-- `InvertedIndex.build`: process every document, then sort each term's
posting list by doc id. -/
def InvIndex.build (docs : List (ℕ × String)) : InvIndex :=
  let idx := docs.foldl (fun i d => addDoc i d.1 d.2) ⟨[], [], 0, []⟩
  { idx with postings := idx.postings.map (fun tp => (tp.1, sortByDoc tp.2)) }

/-- `InvertedIndex.get_postings`: `self.postings.get(term, [])`. -/
def InvIndex.get_postings (idx : InvIndex) (term : String) : List (ℕ × List ℕ) :=
  (dlookup term idx.postings).getD []

/-- `InvertedIndex.sentence_boundaries`: `self._sent_boundaries.get(doc_id, [])`. -/
def InvIndex.sentence_boundaries (idx : InvIndex) (doc_id : ℕ) : List (ℤ × ℤ) :=
  (nlookup doc_id idx.sent_bounds).getD []

/-- `self.doc_len[d]` (total lookup; callers only use ids present in the
build). -/
def InvIndex.docLenOf (idx : InvIndex) (d : ℕ) : ℕ :=
  (nlookup d idx.doc_len).getD 0

/-! ## Query tokenizer: `boolean_query.tokenize_query`

Python: `TOK = re.compile(r'"[^"]+"|\(|\)|/s|/p|/[0-9]+|AND|OR|NOT|[a-z0-9\-]+', re.IGNORECASE)`
and `tokenize_query(q) = TOK.findall(q.lower())`. `findall` scans left to
right; at each position the alternatives are tried in order (first match
wins, so `andover` tokenizes as `and`, `over`); on no match the scan
advances one character. The input is lowercased first, so the literal
operator branches match their lowercase forms. -/

/-- Regex class `[^"]`. -/
def notQuote (c : Char) : Bool :=
  ¬ c = '"'

def tokQGoF : ℕ → List Char → List String
  | _, [] => []
  | 0, _ :: _ => []
  | fuel + 1, l =>
    match l with
    | [] => []
    | '"' :: cs =>
      match List.dropWhile notQuote cs with
      | '"' :: rest2 =>
        if (cs.takeWhile notQuote).isEmpty then tokQGoF fuel cs
        else ('"' :: cs.takeWhile notQuote ++ ['"']).asString :: tokQGoF fuel rest2
      | _ => tokQGoF fuel cs
    | '(' :: cs => "(" :: tokQGoF fuel cs
    | ')' :: cs => ")" :: tokQGoF fuel cs
    | '/' :: 's' :: cs => "/s" :: tokQGoF fuel cs
    | '/' :: 'p' :: cs => "/p" :: tokQGoF fuel cs
    | '/' :: c :: cs =>
      if isDigitChar c then
        ('/' :: c :: cs.takeWhile isDigitChar).asString :: tokQGoF fuel (cs.dropWhile isDigitChar)
      else tokQGoF fuel (c :: cs)
    | '/' :: [] => []
    | 'a' :: 'n' :: 'd' :: cs => "and" :: tokQGoF fuel cs
    | 'o' :: 'r' :: cs => "or" :: tokQGoF fuel cs
    | 'n' :: 'o' :: 't' :: cs => "not" :: tokQGoF fuel cs
    | c :: cs =>
      if isTermChar c then
        (c :: cs.takeWhile isTermChar).asString :: tokQGoF fuel (cs.dropWhile isTermChar)
      else tokQGoF fuel cs

/-- Python `str.lower()` (ASCII). -/
def strLower (s : String) : String :=
  (s.data.map Char.toLower).asString

/-- Python `str.upper()` (ASCII). -/
def strUpper (s : String) : String :=
  (s.data.map Char.toUpper).asString

/-- `boolean_query.tokenize_query`: `TOK.findall(q.lower())`. -/
def tokenize_query (q : String) : List String :=
  tokQGoF (strLower q).data.length (strLower q).data

/-! ## Proximity pre-packing and shunting yard: `boolean_query.evaluate_query` -/

/-- A working token: either a plain string token or a packed proximity
triple `(left, op, right)`. -/
inductive PTok where
  | str : String → PTok
  | tri : String → String → String → PTok
deriving DecidableEq

/-- `re.fullmatch(r'/[0-9]+|/s|/p', tok)`. -/
def isProxOpStr (s : String) : Bool :=
  s == "/s" || s == "/p" ||
    (match s.data with
     | '/' :: rest => !rest.isEmpty && rest.all isDigitChar
     | _ => false)

/-- The pre-packing loop: any three consecutive tokens `a, op, b` with a
proximity operator in the middle (and with at least one token after `op`,
i.e. `i + 2 < len(tokens)`) become one triple. -/
def prePack : List String → List PTok
  | a :: b :: c :: rest =>
    if isProxOpStr b then .tri a b c :: prePack rest
    else .str a :: prePack (b :: c :: rest)
  | a :: rest => .str a :: prePack rest
  | [] => []

/-- Operator precedence: NOT 3, AND 2, OR 1, other 0. -/
def prec (t : String) : ℕ :=
  if t = "NOT" then 3 else if t = "AND" then 2 else if t = "OR" then 1 else 0

/-- `t.upper() in ('AND', 'OR', 'NOT')`. -/
def isBoolOp (t : String) : Bool :=
  strUpper t = "AND" ∨ strUpper t = "OR" ∨ strUpper t = "NOT"

/-- The shunting-yard pass. `out` is the postfix output (in order), `stack`
the operator stack with its top at the head. Unmatched closing parens pop to
the matching open (or drain silently); at the end the stack is drained into
the output (so unmatched opens surface as `"("` output tokens, which later
evaluate as unknown terms — the lenient behavior of the Python). -/
def shuntGo (out : List PTok) (stack : List String) : List PTok → List PTok
  | [] => out ++ stack.map PTok.str
  | .str t :: rest =>
    if t = "(" then shuntGo out ("(" :: stack) rest
    else if t = ")" then
      shuntGo (out ++ (stack.takeWhile (fun s => ¬ s = "(")).map PTok.str)
        (match stack.dropWhile (fun s => ¬ s = "(") with
         | "(" :: s => s
         | s => s) rest
    else if isBoolOp t then
      shuntGo (out ++ (stack.takeWhile (fun s => ¬ s = "(" ∧ prec (strUpper t) ≤ prec s)).map PTok.str)
        (strUpper t :: stack.dropWhile (fun s => ¬ s = "(" ∧ prec (strUpper t) ≤ prec s)) rest
    else shuntGo (out ++ [.str t]) stack rest
  | .tri a op b :: rest => shuntGo (out ++ [.tri a op b]) stack rest

/-! ## Atom evaluation: `_postings_to_docs`, `_phrase_match`, `_within_n`,
`_same_sentence`, `to_docs` -/

/-- Python `operand.strip('"')`. -/
def stripQuotes (s : String) : String :=
  (((s.data.dropWhile (fun c => c = '"')).reverse.dropWhile (fun c => c = '"')).reverse).asString

/-- Python `str.split()`: split on whitespace runs, no empty pieces
(fuel-structural). -/
def splitWsGoF : ℕ → List Char → List String
  | _, [] => []
  | 0, _ :: _ => []
  | fuel + 1, c :: cs =>
    if isWsChar c then splitWsGoF fuel cs
    else (c :: cs.takeWhile (fun d => ¬ isWsChar d)).asString ::
      splitWsGoF fuel (cs.dropWhile (fun d => ¬ isWsChar d))

/-- Python `str.split()` on a character list. -/
def splitWs (l : List Char) : List String :=
  splitWsGoF l.length l

/-- `{doc_id for doc_id, _ in postings}` for a term. -/
def docsOf (idx : InvIndex) (t : String) : Finset ℕ :=
  ((idx.get_postings t).map Prod.fst).toFinset

/-- The successive-offset intersection inside `_phrase_match`:
`s = {p for p in s if (p + i) in pl}` for each later term. -/
def phraseGo (s : Finset ℕ) (i : ℕ) : List (List ℕ) → Finset ℕ
  | [] => s
  | pl :: rest => phraseGo (s.filter (fun p => p + i ∈ pl)) (i + 1) rest

/-- `_phrase_match`: documents containing the phrase terms at strictly
consecutive positions. -/
def phraseMatch (idx : InvIndex) (terms : List String) : Finset ℕ :=
  if terms.isEmpty then ∅
  else
    let pls := terms.map idx.get_postings
    if pls.any List.isEmpty then ∅
    else
      let byDoc : List (ℕ × List (List ℕ)) :=
        pls.foldl (fun acc pl => pl.foldl (fun a dp => nappend dp.1 dp.2 a) acc) []
      byDoc.foldl (fun res dpl =>
        if dpl.2.length = terms.length then
          match dpl.2 with
          | [] => res
          | first :: others =>
            if phraseGo first.toFinset 1 others = ∅ then res else insert dpl.1 res
        else res) ∅

/-- `_within_n`: documents where some occurrence of `a` and some occurrence
of `b` lie within absolute distance `n` (inclusive). -/
def withinN (idx : InvIndex) (a b : String) (n : ℕ) : Finset ℕ :=
  let A := idx.get_postings a
  let B := idx.get_postings b
  (((A.map Prod.fst).toFinset ∩ (B.map Prod.fst).toFinset).filter (fun d =>
    (match lastLookup d A, lastLookup d B with
     | some pa, some pb => pa.any (fun x => pb.any (fun y => ((x : ℤ) - y).natAbs ≤ n))
     | _, _ => false) = true))

/-- `_same_sentence`: documents where one sentence boundary contains a
position of `a` and a position of `b`. -/
def sameSentence (idx : InvIndex) (a b : String) : Finset ℕ :=
  let A := idx.get_postings a
  let B := idx.get_postings b
  (((A.map Prod.fst).toFinset ∩ (B.map Prod.fst).toFinset).filter (fun d =>
    (match lastLookup d A, lastLookup d B with
     | some pa, some pb =>
       (idx.sentence_boundaries d).any (fun se =>
         pa.any (fun x => decide (se.1 ≤ (x : ℤ) ∧ (x : ℤ) ≤ se.2)) &&
         pb.any (fun y => decide (se.1 ≤ (y : ℤ) ∧ (y : ℤ) ≤ se.2)))
     | _, _ => false) = true))

/-- `int(op[1:])` for a `/[0-9]+` operator token (decimal digits fold). -/
def parseProxN (op : String) : ℕ :=
  (op.data.drop 1).foldl (fun n c => 10 * n + (c.toNat - 48)) 0

/-- `to_docs`: evaluate one postfix operand to a document-id set. -/
def toDocs (idx : InvIndex) : PTok → Finset ℕ
  | .tri a op b =>
    if op = "/s" then sameSentence idx (stripQuotes a) (stripQuotes b)
    else if op = "/p" then withinN idx (stripQuotes a) (stripQuotes b) 50
    else withinN idx (stripQuotes a) (stripQuotes b) (parseProxN op)
  | .str t =>
    if t.data.head? = some '"' ∧ t.data.getLast? = some '"' then
      phraseMatch idx (splitWs (stripQuotes t).data)
    else docsOf idx t

/-! ## Postfix evaluation: the RPN loop of `evaluate_query` -/

def mergeAnd (a b : Finset ℕ) : Finset ℕ := a ∩ b
def mergeOr (a b : Finset ℕ) : Finset ℕ := a ∪ b
def mergeNot (a b : Finset ℕ) : Finset ℕ := a \ b

/-- Python `sorted(s)` for a set of document ids: the members in ascending
order (computed by a kernel-reducible range filter). -/
def finsetAsc (s : Finset ℕ) : List ℕ :=
  (List.range (s.sum id + 1)).filter (fun d => d ∈ s)

/-- The evaluation stack loop. The stack top is the list head. `none`
models the Python `IndexError` raised by `list.pop()` on an empty stack
(dangling operators). At the end the Python returns
`sorted(stack2[-1]) if stack2 else []`. -/
def evalGo (idx : InvIndex) (st : List (Finset ℕ)) : List PTok → Option (List ℕ)
  | [] =>
    match st with
    | [] => some []
    | top :: _ => some (finsetAsc top)
  | .str t :: rest =>
    if t = "AND" ∨ t = "OR" ∨ t = "NOT" then
      if t = "NOT" then
        match st with
        | [] => none
        | b :: [] => evalGo idx [mergeNot ∅ b] rest
        | b :: a :: st' => evalGo idx (mergeNot a b :: st') rest
      else
        match st with
        | b :: a :: st' =>
          evalGo idx ((if t = "AND" then mergeAnd a b else mergeOr a b) :: st') rest
        | _ => none
    else evalGo idx (toDocs idx (.str t) :: st) rest
  | .tri a op b :: rest => evalGo idx (toDocs idx (.tri a op b) :: st) rest

/-- Evaluation of an already-tokenized query. -/
def evaluateTokens (idx : InvIndex) (toks : List String) : Option (List ℕ) :=
  evalGo idx [] (shuntGo [] [] (prePack toks))

/-- `boolean_query.evaluate_query`. `none` models an uncaught exception. -/
def evaluate_query (idx : InvIndex) (q : String) : Option (List ℕ) :=
  evaluateTokens idx (tokenize_query q)

/-! ## BM25 ranker: `bm25.BM25`

Python floats are modelled as exact rationals. `math.log` is abstracted as
a parameter `logF : ℚ → ℚ`: the claims under study (result ordering, zero
contribution of unknown terms) hold for every choice of `logF`, and the
tie counterexample only needs that identical computations yield identical
scores. The Python `for d in cand:` loop iterates a `set` in
implementation-defined order; that order is passed explicitly as
`candOrder` (CPython iterates `{1, 8}` as `[8, 1]`).

Note: `bm25.py` imports `DEFAULT_STOPWORDS` from `preprocessing`, which
only defines `STOPWORDS` (the checkpoint copy `bm25-checkpoint.py` uses
`STOPWORDS` directly); the intended stopword set `STOPWORDS` is used here. -/

/-- Query terms: `[t for t in word_tokenize(query_text) if t not in stopwords]`. -/
def queryTerms (q : String) : List String :=
  (word_tokenize q).filter (fun t => ¬ STOPWORDS.contains t)

/-- `self._df.get(term, 0)`: the document frequency, i.e. the length of the
term's posting list. -/
def dfOf (idx : InvIndex) (t : String) : ℕ :=
  ((dlookup t idx.postings).getD []).length

/-- `self._avgdl = sum(doc_len.values()) / N if N > 0 else 0.0`. -/
def avgdlOf (idx : InvIndex) : ℚ :=
  if 0 < idx.num_docs then (idx.doc_len.map (fun p => (p.2 : ℚ))).sum / idx.num_docs else 0

/-- `BM25.idf` with `math.log` abstracted:
`log((N - df + 0.5) / (df + 0.5) + 1)`. -/
def idfQ (logF : ℚ → ℚ) (idx : InvIndex) (t : String) : ℚ :=
  logF (((idx.num_docs : ℚ) - (dfOf idx t : ℚ) + 1/2) / ((dfOf idx t : ℚ) + 1/2) + 1)

/-- `denom_norm = k1 * (1 - b + b * (dl / (avgdl + 1e-9)))`. -/
def denomNorm (k1 b : ℚ) (idx : InvIndex) (d : ℕ) : ℚ :=
  k1 * (1 - b + b * ((idx.docLenOf d : ℚ) / (avgdlOf idx + 1/1000000000)))

/-- `tf`: length of the positions list of `t` in document `d`
(`plist = dict(self.index.postings[t]); len(plist[d]) if d in plist else 0`). -/
def tfOf (idx : InvIndex) (t : String) (d : ℕ) : ℕ :=
  match dlookup t idx.postings with
  | none => 0
  | some pl =>
    match lastLookup d pl with
    | some ps => ps.length
    | none => 0

/-- The contribution of one distinct query term to one document's score: the
loop body `if t not in postings: continue; ...; if tf == 0: continue;
s += idf * (tf * (k1 + 1)) / (tf + denom_norm)`. -/
def termContrib (logF : ℚ → ℚ) (k1 b : ℚ) (idx : InvIndex) (t : String) (d : ℕ) : ℚ :=
  if (dlookup t idx.postings).isNone then 0
  else if tfOf idx t d = 0 then 0
  else idfQ logF idx t * ((tfOf idx t d : ℚ) * (k1 + 1)) / ((tfOf idx t d : ℚ) + denomNorm k1 b idx d)

/-- One document's score: the sum over `set(q_terms)` (exact rational
addition is order-independent, so the distinct terms are taken in first
occurrence order). -/
def docScore (logF : ℚ → ℚ) (k1 b : ℚ) (idx : InvIndex) (qts : List String) (d : ℕ) : ℚ :=
  (qts.dedup.map (fun t => termContrib logF k1 b idx t d)).sum

/-- The candidate set: union over query terms of their posting doc ids. -/
def candSet (idx : InvIndex) (qts : List String) : Finset ℕ :=
  qts.foldl (fun acc t => acc ∪ docsOf idx t) ∅

/-- Stable insertion keeping scores in descending order; on ties the already
placed entry stays first (Python's stable `sorted(..., reverse=True)`). -/
def insertDesc (x : ℕ × ℚ) : List (ℕ × ℚ) → List (ℕ × ℚ)
  | [] => [x]
  | y :: ys => if x.2 ≤ y.2 then y :: insertDesc x ys else x :: y :: ys

/-- Model of `sorted(scores.items(), key=lambda x: x[1], reverse=True)`. -/
def pySortDesc (l : List (ℕ × ℚ)) : List (ℕ × ℚ) :=
  l.foldl (fun acc x => insertDesc x acc) []

/-- `BM25.score_query` (without the redundant `candidate_docs` restriction,
which only shrinks the candidate set): build `scores` in candidate
iteration order, dropping zero scores, then sort by score descending. -/
def score_query (logF : ℚ → ℚ) (k1 b : ℚ) (idx : InvIndex) (q : String)
    (candOrder : List ℕ) : List (ℕ × ℚ) :=
  if (queryTerms q).isEmpty then []
  else
    pySortDesc (candOrder.foldl
      (fun acc d =>
        if docScore logF k1 b idx (queryTerms q) d ≠ 0 then
          acc ++ [(d, docScore logF k1 b idx (queryTerms q) d)]
        else acc) [])

/-- The real-valued idf formula of `BM25.idf`:
`math.log((N - df + 0.5) / (df + 0.5) + 1)`. -/
noncomputable def idfR (N df : ℕ) : ℝ :=
  Real.log (((N : ℝ) - (df : ℝ) + 1/2) / ((df : ℝ) + 1/2) + 1)

/-! ## The demo corpus of `run_demo.py` -/

def DOCS : List (ℕ × String) :=
  [(1, "Night visual approach with unexpected tailwind led to long landing and runway excursion."),
   (2, "Climb-out icing after takeoff; pitot heat oversight led to airspeed discrepancies; returned to land."),
   (3, "Taxiway incursion due to similar call signs; readback-hearback breakdown with ATC."),
   (4, "RNAV GPS approach in mountainous terrain; false glidepath capture; CFIT risk mitigated by go-around."),
   (5, "Landing with crosswind gusts; unstable short final; veer-off avoided by go-around.")]

def demoIdx : InvIndex := InvIndex.build DOCS

/-! ## Auxiliary predicates used by the claim statements -/

/-- Stack-depth simulation of the RPN loop: `true` iff no operator ever pops
an empty stack (mirrors the branch structure of `evalGo`; `NOT` needs one
operand and also takes a left operand when available). -/
def rpnSafe (c : ℕ) : List PTok → Bool
  | [] => true
  | .str t :: rest =>
    if t = "AND" ∨ t = "OR" ∨ t = "NOT" then
      if t = "NOT" then
        match c with
        | 0 => false
        | 1 => rpnSafe 1 rest
        | k + 2 => rpnSafe (k + 1) rest
      else
        match c with
        | 0 => false
        | 1 => false
        | k + 2 => rpnSafe (k + 1) rest
    else rpnSafe (c + 1) rest
  | .tri _ _ _ :: rest => rpnSafe (c + 1) rest

/-- The postfix token stream a query is evaluated from. -/
def rpnOf (q : String) : List PTok :=
  shuntGo [] [] (prePack (tokenize_query q))

/-- Sentence boundaries starting at cursor `c`: each next sentence starts
one past the previous inclusive end. -/
def contiguousFrom : ℤ → List (ℤ × ℤ) → Prop
  | _, [] => True
  | c, se :: rest => se.1 = c ∧ contiguousFrom (se.2 + 1) rest

/-- The ordering property claimed for BM25 results: scores strictly
descending, with ascending doc id on ties. -/
def scoreSortedTieAsc (l : List (ℕ × ℚ)) : Prop :=
  l.Pairwise (fun p q => q.2 < p.2 ∨ (p.2 = q.2 ∧ p.1 < q.1))

/-- Scores in (weakly) descending order. -/
def scoreSortedDesc (l : List (ℕ × ℚ)) : Prop :=
  l.Pairwise (fun p q => q.2 ≤ p.2)

/-- Characters that can occur in an indexed term: lowercased alphanumerics
and the two joiners of the word-tokenizer regex. -/
def goodChar (c : Char) : Bool :=
  isAlnumCI c ∨ c = '\'' ∨ c = '-'

/-- The two-identical-documents index used to exhibit the BM25 tie order.
CPython iterates the candidate set `{1, 8}` as `[8, 1]` (`hash(n) = n`, an
8-slot table scanned from slot 0, `8 % 8 = 0`). -/
def tieIdx : InvIndex := InvIndex.build [(1, "alpha"), (8, "alpha")]

/-- Invariant of a postings table: every posting list is non-empty, has
pairwise-distinct document ids drawn from `ids`, and strictly ascending
positions. -/
def PostInv (ids : List ℕ) (P : List (String × List (ℕ × List ℕ))) : Prop :=
  ∀ e ∈ P, e.2 ≠ [] ∧ (e.2.map Prod.fst).Nodup ∧
    ∀ q ∈ e.2, q.1 ∈ ids ∧ List.Chain' (· < ·) q.2

/-! # Theorems -/

set_option maxRecDepth 10000 in
/-- C3: on the canonical five-document demo corpus, the query
`(approach AND mountainous) /s (cfit OR terrain)` returns exactly the
CFIT/mountainous-terrain document, id 4. -/
theorem claim_C3 :
    evaluate_query demoIdx "(approach AND mountainous) /s (cfit OR terrain)" = some [4] := by
  decide

set_option maxRecDepth 10000 in
/-- C1 (counterexample): a lone `NOT` makes `evaluate_query` pop an empty
operand stack, raising `IndexError` (modelled `none`) — it does not return
a list, contradicting the claim that malformed queries never raise. The
same happens for `a AND`. -/
theorem claim_C1_counterexample :
    evaluate_query demoIdx "not" = none ∧ evaluate_query demoIdx "a and" = none := by
  constructor
  · decide
  · decide

/-! ## Trace lemmas for the evaluator pipeline -/

theorem prePack_three_nonop (a b c : String) (h : isProxOpStr b = false) :
    prePack [a, b, c] = [.str a, .str b, .str c] := by
  simp [prePack, h]

theorem prePack_three_op (a b c : String) (rest : List String) (h : isProxOpStr b = true) :
    prePack (a :: b :: c :: rest) = .tri a b c :: prePack rest := by
  simp [prePack, h]

theorem isBoolOp_eq_false {t : String} (h1 : ¬ strUpper t = "AND") (h2 : ¬ strUpper t = "OR")
    (h3 : ¬ strUpper t = "NOT") : isBoolOp t = false := by
  simp [isBoolOp, h1, h2, h3]

theorem shuntGo_operand (out : List PTok) (stack : List String) (t : String) (rest : List PTok)
    (h1 : ¬ t = "(") (h2 : ¬ t = ")") (h3 : isBoolOp t = false) :
    shuntGo out stack (.str t :: rest) = shuntGo (out ++ [.str t]) stack rest := by
  simp [shuntGo, h1, h2, h3]

theorem shuntGo_boolop_nilstack (out : List PTok) (t : String) (rest : List PTok)
    (h1 : ¬ t = "(") (h2 : ¬ t = ")") (h3 : isBoolOp t = true) :
    shuntGo out [] (.str t :: rest) = shuntGo out [strUpper t] rest := by
  simp [shuntGo, h1, h2, h3]

theorem shuntGo_tri (out : List PTok) (stack : List String) (a op b : String) (rest : List PTok) :
    shuntGo out stack (.tri a op b :: rest) = shuntGo (out ++ [.tri a op b]) stack rest := rfl

theorem evalGo_operand (idx : InvIndex) (st : List (Finset ℕ)) (t : String) (rest : List PTok)
    (h1 : ¬ t = "AND") (h2 : ¬ t = "OR") (h3 : ¬ t = "NOT") :
    evalGo idx st (.str t :: rest) = evalGo idx (toDocs idx (.str t) :: st) rest := by
  simp [evalGo, h1, h2, h3]

theorem evalGo_not_two (idx : InvIndex) (b a : Finset ℕ) (st : List (Finset ℕ)) (rest : List PTok) :
    evalGo idx (b :: a :: st) (.str "NOT" :: rest) = evalGo idx (mergeNot a b :: st) rest := by
  simp [evalGo]

theorem evalGo_not_one (idx : InvIndex) (b : Finset ℕ) (rest : List PTok) :
    evalGo idx [b] (.str "NOT" :: rest) = evalGo idx [mergeNot ∅ b] rest := by
  simp [evalGo]

theorem evalGo_tri_push (idx : InvIndex) (st : List (Finset ℕ)) (a op b : String)
    (rest : List PTok) :
    evalGo idx st (.tri a op b :: rest) = evalGo idx (toDocs idx (.tri a op b) :: st) rest := rfl

/-- C5: `NOT` is evaluated as left-minus-right set difference; a bare
leading `NOT` (one operand, nothing on the stack below it) takes the left
side to be the empty set and therefore evaluates to the empty set; and the
result of `x NOT y` is disjoint from the result of `y`. Stated for term
atoms `x`, `y` (any tokens that are not operators or parentheses), plus the
set-level facts about the program's `_merge_not` for arbitrary operand
sets. -/
theorem claim_C5 (idx : InvIndex) (x y : String)
    (hx1 : ¬ strUpper x = "AND") (hx2 : ¬ strUpper x = "OR") (hx3 : ¬ strUpper x = "NOT")
    (hx4 : ¬ x = "(") (hx5 : ¬ x = ")")
    (hy1 : ¬ strUpper y = "AND") (hy2 : ¬ strUpper y = "OR") (hy3 : ¬ strUpper y = "NOT")
    (hy4 : ¬ y = "(") (hy5 : ¬ y = ")") :
    evaluateTokens idx [x, "not", y]
        = some (finsetAsc (mergeNot (toDocs idx (.str x)) (toDocs idx (.str y))))
    ∧ evaluateTokens idx ["not", y] = some []
    ∧ mergeNot (toDocs idx (.str x)) (toDocs idx (.str y)) ∩ toDocs idx (.str y) = ∅
    ∧ ∀ a b : Finset ℕ, mergeNot a b = a \ b ∧ mergeNot a b ∩ b = ∅ := by
  have hxne1 : ¬ x = "AND" := fun he => hx1 (by rw [he]; rfl)
  have hxne2 : ¬ x = "OR" := fun he => hx2 (by rw [he]; rfl)
  have hxne3 : ¬ x = "NOT" := fun he => hx3 (by rw [he]; rfl)
  have hyne1 : ¬ y = "AND" := fun he => hy1 (by rw [he]; rfl)
  have hyne2 : ¬ y = "OR" := fun he => hy2 (by rw [he]; rfl)
  have hyne3 : ¬ y = "NOT" := fun he => hy3 (by rw [he]; rfl)
  have hbx : isBoolOp x = false := isBoolOp_eq_false hx1 hx2 hx3
  have hby : isBoolOp y = false := isBoolOp_eq_false hy1 hy2 hy3
  refine ⟨?_, ?_, ?_, ?_⟩
  · show evalGo idx [] (shuntGo [] [] (prePack [x, "not", y])) = _
    rw [prePack_three_nonop x "not" y (by decide)]
    rw [shuntGo_operand _ _ _ _ hx4 hx5 hbx]
    rw [shuntGo_boolop_nilstack _ _ _ (by decide) (by decide) (by decide)]
    have hup : strUpper "not" = "NOT" := rfl
    rw [hup]
    simp only [List.nil_append]
    rw [show shuntGo [PTok.str x] ["NOT"] [PTok.str y]
          = shuntGo ([PTok.str x] ++ [PTok.str y]) ["NOT"] [] from by
        simp [shuntGo, hy4, hy5, hby]]
    rw [show shuntGo ([PTok.str x] ++ [PTok.str y]) ["NOT"] []
          = [PTok.str x, PTok.str y, PTok.str "NOT"] from rfl]
    rw [evalGo_operand _ _ _ _ hxne1 hxne2 hxne3]
    rw [evalGo_operand _ _ _ _ hyne1 hyne2 hyne3]
    rw [evalGo_not_two]
    rfl
  · show evalGo idx [] (shuntGo [] [] (prePack ["not", y])) = _
    rw [show prePack ["not", y] = [PTok.str "not", PTok.str y] from rfl]
    rw [shuntGo_boolop_nilstack _ _ _ (by decide) (by decide) (by decide)]
    have hup : strUpper "not" = "NOT" := rfl
    rw [hup]
    rw [show shuntGo [] ["NOT"] [PTok.str y] = shuntGo ([] ++ [PTok.str y]) ["NOT"] [] from by
      simp [shuntGo, hy4, hy5, hby]]
    rw [show shuntGo ([] ++ [PTok.str y]) ["NOT"] [] = [PTok.str y, PTok.str "NOT"] from rfl]
    rw [evalGo_operand _ _ _ _ hyne1 hyne2 hyne3]
    rw [evalGo_not_one]
    have hempty : mergeNot ∅ (toDocs idx (.str y)) = ∅ := by
      simp [mergeNot]
    rw [hempty]
    rfl
  · simp [mergeNot, Finset.sdiff_inter_self]
  · intro a b
    exact ⟨rfl, by simp [mergeNot, Finset.sdiff_inter_self]⟩

set_option maxRecDepth 10000 in
/-- C5 witness: concrete instance on the demo corpus with `x = approach`,
`y = terrain` (`approach` matches documents 1 and 4, `terrain` document 4,
so `approach NOT terrain` is `[1]` and is disjoint from `terrain`). -/
theorem claim_C5_witness :
    evaluateTokens demoIdx ["approach", "not", "terrain"]
        = some (finsetAsc (mergeNot (toDocs demoIdx (.str "approach"))
            (toDocs demoIdx (.str "terrain"))))
    ∧ evaluateTokens demoIdx ["not", "terrain"] = some []
    ∧ mergeNot (toDocs demoIdx (.str "approach")) (toDocs demoIdx (.str "terrain"))
        ∩ toDocs demoIdx (.str "terrain") = ∅
    ∧ ∀ a b : Finset ℕ, mergeNot a b = a \ b ∧ mergeNot a b ∩ b = ∅ :=
  claim_C5 demoIdx "approach" "terrain" (by decide) (by decide) (by decide) (by decide)
    (by decide) (by decide) (by decide) (by decide) (by decide) (by decide)

/-! ## Symmetry of the proximity primitives -/

theorem withinN_comm (idx : InvIndex) (a b : String) (n : ℕ) :
    withinN idx a b n = withinN idx b a n := by
  ext d
  simp only [withinN, Finset.mem_filter, Finset.mem_inter]
  rcases hA : lastLookup d (idx.get_postings a) with _ | pa <;>
    rcases hB : lastLookup d (idx.get_postings b) with _ | pb <;>
      simp only [hA, hB]
  · tauto
  · tauto
  · tauto
  · simp only [List.any_eq_true, decide_eq_true_eq]
    constructor
    · rintro ⟨⟨h1, h2⟩, x, hx, y, hy, hxy⟩
      exact ⟨⟨h2, h1⟩, y, hy, x, hx, by omega⟩
    · rintro ⟨⟨h1, h2⟩, y, hy, x, hx, hxy⟩
      exact ⟨⟨h2, h1⟩, x, hx, y, hy, by omega⟩

theorem sameSentence_comm (idx : InvIndex) (a b : String) :
    sameSentence idx a b = sameSentence idx b a := by
  ext d
  simp only [sameSentence, Finset.mem_filter, Finset.mem_inter]
  rcases hA : lastLookup d (idx.get_postings a) with _ | pa <;>
    rcases hB : lastLookup d (idx.get_postings b) with _ | pb <;>
      simp only [hA, hB]
  · tauto
  · tauto
  · tauto
  · simp only [List.any_eq_true, Bool.and_eq_true]
    constructor
    · rintro ⟨⟨h1, h2⟩, se, hse, h3, h4⟩
      exact ⟨⟨h2, h1⟩, se, hse, h4, h3⟩
    · rintro ⟨⟨h1, h2⟩, se, hse, h3, h4⟩
      exact ⟨⟨h2, h1⟩, se, hse, h4, h3⟩

theorem toDocs_tri_comm (idx : InvIndex) (a op b : String) :
    toDocs idx (.tri a op b) = toDocs idx (.tri b op a) := by
  simp only [toDocs]
  split_ifs
  · exact sameSentence_comm idx _ _
  · exact withinN_comm idx _ _ _
  · exact withinN_comm idx _ _ _

/-- C8: a proximity query is symmetric in its two operands — a document
matches `a /n b` iff some occurrence of `a` and some occurrence of `b` are
within absolute distance `n` (inclusive), which is symmetric; evaluating
the packed query `a op b` gives the same document list as `b op a` for
every proximity operator token (`/n`, `/s`, `/p`). -/
theorem claim_C8 :
    (∀ (idx : InvIndex) (a b : String) (n : ℕ), withinN idx a b n = withinN idx b a n)
    ∧ ∀ (idx : InvIndex) (a op b : String), isProxOpStr op = true →
        evaluateTokens idx [a, op, b] = evaluateTokens idx [b, op, a] := by
  refine ⟨withinN_comm, fun idx a op b hop => ?_⟩
  show evalGo idx [] (shuntGo [] [] (prePack [a, op, b]))
      = evalGo idx [] (shuntGo [] [] (prePack [b, op, a]))
  rw [show prePack [a, op, b] = prePack (a :: op :: b :: []) from rfl]
  rw [show prePack [b, op, a] = prePack (b :: op :: a :: []) from rfl]
  rw [prePack_three_op _ _ _ _ hop, prePack_three_op _ _ _ _ hop]
  rw [show prePack ([] : List String) = [] from rfl]
  rw [shuntGo_tri, shuntGo_tri]
  simp only [List.nil_append]
  rw [show shuntGo [PTok.tri a op b] [] [] = [PTok.tri a op b] from rfl]
  rw [show shuntGo [PTok.tri b op a] [] [] = [PTok.tri b op a] from rfl]
  rw [evalGo_tri_push, evalGo_tri_push]
  rw [toDocs_tri_comm]

set_option maxRecDepth 10000 in
/-- C8 witness: on the demo corpus, `icing /5 pitot` and `pitot /5 icing`
both evaluate to document 2. -/
theorem claim_C8_witness :
    isProxOpStr "/5" = true
    ∧ evaluateTokens demoIdx ["icing", "/5", "pitot"]
        = evaluateTokens demoIdx ["pitot", "/5", "icing"] :=
  ⟨by decide, claim_C8.2 demoIdx "icing" "/5" "pitot" (by decide)⟩

/-- C7: an unknown term has empty postings (no failure), contributes the
empty document set to boolean evaluation, and contributes score zero for
every document in BM25 (for every log model and every parameter choice). -/
theorem claim_C7 (idx : InvIndex) (t : String) (h : dlookup t idx.postings = none) :
    idx.get_postings t = [] ∧ docsOf idx t = ∅
    ∧ ∀ (logF : ℚ → ℚ) (k1 b : ℚ) (d : ℕ), termContrib logF k1 b idx t d = 0 := by
  refine ⟨?_, ?_, ?_⟩
  · simp [InvIndex.get_postings, h]
  · simp [docsOf, InvIndex.get_postings, h]
  · intro logF k1 b d
    simp [termContrib, h]

set_option maxRecDepth 10000 in
/-- C7 witness: the term `zzz` does not occur in the demo corpus. -/
theorem claim_C7_witness :
    demoIdx.get_postings "zzz" = [] ∧ docsOf demoIdx "zzz" = ∅
    ∧ ∀ (logF : ℚ → ℚ) (k1 b : ℚ) (d : ℕ), termContrib logF k1 b demoIdx "zzz" d = 0 :=
  claim_C7 demoIdx "zzz" (by decide)

/-! ## Whitespace-only input (C4) -/

theorem wsChar_not_alnum {c : Char} (h : isWsChar c = true) : isAlnumCI c = false := by
  simp only [isWsChar, decide_eq_true_eq] at h
  rcases h with h | h | h | h | h | h <;> subst h <;> decide

theorem stripWs_all_ws {l : List Char} (h : ∀ c ∈ l, isWsChar c = true) : stripWs l = [] := by
  have h1 : l.dropWhile isWsChar = [] := by
    rw [List.dropWhile_eq_nil_iff]
    exact fun c hc => h c hc
  simp [stripWs, h1]

theorem wtAuxF_no_alnum : ∀ (fuel : ℕ) (l : List Char),
    (∀ c ∈ l, isAlnumCI c = false) → wtAuxF fuel l = [] := by
  intro fuel
  induction fuel with
  | zero => intro l _; cases l <;> rfl
  | succ n ih =>
    intro l h
    cases l with
    | nil => rfl
    | cons c cs =>
      have hc : isAlnumCI c = false := h c (by simp)
      simp only [wtAuxF, hc, Bool.false_eq_true, if_false]
      exact ih cs (fun d hd => h d (by simp [hd]))

/-- C4 (counterexample): on the empty input the claim says `preprocess`
returns `([], [])`, but the code returns `([], [[]])` — one empty sentence
group, because the no-sentence branch wraps the (empty) token list as
`[toks]`. -/
theorem claim_C4_counterexample : ¬ (preprocess "" = ([], [])) := by decide

/-- C4 (amended): on every empty or whitespace-only input, `sent_tokenize`
yields no sentences and `preprocess` returns an empty flat token list
together with a single empty sentence group: `([], [[]])` (not `([], [])`
as claimed). -/
theorem claim_C4_amended (s : String) (h : ∀ c ∈ s.data, isWsChar c = true) :
    sent_tokenize s = [] ∧ preprocess s = ([], [[]]) := by
  have hst : stripWs s.data = [] := stripWs_all_ws h
  have h1 : sent_tokenize s = [] := by
    simp [sent_tokenize, hst]
  refine ⟨h1, ?_⟩
  have hwt : word_tokenize s = [] := by
    unfold word_tokenize
    rw [wtAuxF_no_alnum _ _ (fun c hc => wsChar_not_alnum (h c hc))]
    rfl
  simp [preprocess, h1, hwt]

/-- C4 witness: a concrete whitespace-only input. -/
theorem claim_C4_witness :
    sent_tokenize "  " = [] ∧ preprocess "  " = ([], [[]]) :=
  claim_C4_amended "  " (by decide)

/-! ## BM25 result ordering (C2) -/

theorem insertDesc_mem {z x : ℕ × ℚ} {l : List (ℕ × ℚ)} (h : z ∈ insertDesc x l) :
    z = x ∨ z ∈ l := by
  induction l with
  | nil => simpa [insertDesc] using h
  | cons y ys ih =>
    rw [insertDesc] at h
    by_cases hc : x.2 ≤ y.2
    · rw [if_pos hc] at h
      rcases List.mem_cons.mp h with h1 | h1
      · exact Or.inr (List.mem_cons.mpr (Or.inl h1))
      · rcases ih h1 with h2 | h2
        · exact Or.inl h2
        · exact Or.inr (List.mem_cons.mpr (Or.inr h2))
    · rw [if_neg hc] at h
      rcases List.mem_cons.mp h with h1 | h1
      · exact Or.inl h1
      · exact Or.inr h1

theorem insertDesc_sorted {x : ℕ × ℚ} {l : List (ℕ × ℚ)} (h : scoreSortedDesc l) :
    scoreSortedDesc (insertDesc x l) := by
  induction l with
  | nil => simp [insertDesc, scoreSortedDesc]
  | cons y ys ih =>
    simp only [scoreSortedDesc, List.pairwise_cons] at h
    obtain ⟨hy, hys⟩ := h
    rw [insertDesc]
    by_cases hc : x.2 ≤ y.2
    · rw [if_pos hc]
      simp only [scoreSortedDesc, List.pairwise_cons]
      refine ⟨?_, ih hys⟩
      intro z hz
      rcases insertDesc_mem hz with h1 | h1
      · rw [h1]; exact hc
      · exact hy z h1
    · rw [if_neg hc]
      simp only [scoreSortedDesc, List.pairwise_cons]
      push_neg at hc
      refine ⟨?_, ?_⟩
      · intro z hz
        rcases List.mem_cons.mp hz with h1 | h1
        · rw [h1]; exact le_of_lt hc
        · exact le_trans (hy z h1) (le_of_lt hc)
      · exact ⟨hy, hys⟩

theorem pySortDesc_sorted (l : List (ℕ × ℚ)) : scoreSortedDesc (pySortDesc l) := by
  suffices h : ∀ acc, scoreSortedDesc acc →
      scoreSortedDesc (l.foldl (fun acc x => insertDesc x acc) acc) by
    exact h [] (by simp [scoreSortedDesc])
  induction l with
  | nil => intro acc hacc; exact hacc
  | cons x xs ih =>
    intro acc hacc
    exact ih (insertDesc x acc) (insertDesc_sorted hacc)

/-- C2 (amended): for every log model, parameters, index, query and
candidate iteration order, the BM25 result list is sorted by score
descending. The ascending-id tie-break claimed by the specification does
not exist in the code: the sort is stable on the score only, so equal-score
entries stay in candidate-set iteration order (see the counterexample). -/
theorem claim_C2_amended (logF : ℚ → ℚ) (k1 b : ℚ) (idx : InvIndex) (q : String)
    (candOrder : List ℕ) : scoreSortedDesc (score_query logF k1 b idx q candOrder) := by
  unfold score_query
  by_cases h : (queryTerms q).isEmpty
  · simp [h, scoreSortedDesc]
  · simp only [h, Bool.false_eq_true, if_false]
    exact pySortDesc_sorted _

set_option maxRecDepth 10000 in
theorem tieIdx_facts :
    queryTerms "alpha" = ["alpha"]
    ∧ (["alpha"] : List String).dedup = ["alpha"]
    ∧ (dlookup "alpha" tieIdx.postings).isNone = false
    ∧ tfOf tieIdx "alpha" 1 = 1 ∧ tfOf tieIdx "alpha" 8 = 1
    ∧ tieIdx.docLenOf 1 = 1 ∧ tieIdx.docLenOf 8 = 1
    ∧ tieIdx.num_docs = 2 ∧ dfOf tieIdx "alpha" = 2
    ∧ tieIdx.doc_len = [(1, 1), (8, 1)] := by
  refine ⟨by decide, by decide, by decide, by decide, by decide, by decide, by decide,
    by decide, by decide, by decide⟩

theorem tieIdx_score_eq :
    docScore id (6/5) (3/4) tieIdx ["alpha"] 1 = docScore id (6/5) (3/4) tieIdx ["alpha"] 8 := by
  obtain ⟨_, hda, hnn, htf1, htf8, hdl1, hdl8, _, _, _⟩ := tieIdx_facts
  simp only [docScore, hda, List.map_cons, List.map_nil, List.sum_cons, List.sum_nil,
    termContrib, hnn, Bool.false_eq_true, if_false, htf1, htf8, denomNorm, hdl1, hdl8]

theorem tieIdx_score_pos : 0 < docScore id (6/5) (3/4) tieIdx ["alpha"] 8 := by
  obtain ⟨_, hda, hnn, _, htf8, _, hdl8, hN, hdf, hdll⟩ := tieIdx_facts
  have havg : avgdlOf tieIdx = 1 := by
    rw [avgdlOf, if_pos (by rw [hN]; norm_num), hdll, hN]
    norm_num
  simp only [docScore, hda, List.map_cons, List.map_nil, List.sum_cons, List.sum_nil,
    termContrib, hnn, Bool.false_eq_true, if_false, htf8, denomNorm, hdl8, idfQ, hN, hdf,
    havg, id]
  norm_num

/-- C2 (counterexample): two identical one-word documents with ids 1 and 8
get exactly equal, nonzero BM25 scores for the query `alpha` (default
parameters `k1 = 1.2`, `b = 0.75`). CPython iterates the candidate set
`{1, 8}` in the order `[8, 1]`; the stable score-only sort keeps that
order, so the returned list is `[(8, s), (1, s)]` — equal scores in
descending id order, refuting the claimed ascending-id tie-break. -/
theorem claim_C2_counterexample :
    candSet tieIdx (queryTerms "alpha") = {1, 8}
    ∧ (∃ s : ℚ, s ≠ 0 ∧ score_query id (6/5) (3/4) tieIdx "alpha" [8, 1] = [(8, s), (1, s)])
    ∧ (score_query id (6/5) (3/4) tieIdx "alpha" [8, 1]).map Prod.fst = [8, 1]
    ∧ ¬ scoreSortedTieAsc (score_query id (6/5) (3/4) tieIdx "alpha" [8, 1]) := by
  obtain ⟨hq, _, _, _, _, _, _, _, _, _⟩ := tieIdx_facts
  have hs8 := tieIdx_score_pos
  have hEq := tieIdx_score_eq
  have hne8 : docScore id (6/5) (3/4) tieIdx ["alpha"] 8 ≠ 0 := ne_of_gt hs8
  have hne1 : docScore id (6/5) (3/4) tieIdx ["alpha"] 1 ≠ 0 := by
    rw [hEq]
    exact hne8
  have hL : score_query id (6/5) (3/4) tieIdx "alpha" [8, 1]
      = [(8, docScore id (6/5) (3/4) tieIdx ["alpha"] 8),
         (1, docScore id (6/5) (3/4) tieIdx ["alpha"] 8)] := by
    rw [score_query, hq]
    simp only [List.isEmpty_cons, Bool.false_eq_true, if_false, List.foldl_cons,
      List.foldl_nil, List.nil_append]
    rw [if_pos hne1, if_pos hne8, hEq]
    simp only [List.nil_append, List.cons_append]
    rw [pySortDesc]
    simp only [List.foldl_cons, List.foldl_nil]
    rw [show insertDesc (8, docScore id (6/5) (3/4) tieIdx ["alpha"] 8) []
          = [(8, docScore id (6/5) (3/4) tieIdx ["alpha"] 8)] from rfl]
    rw [show insertDesc (1, docScore id (6/5) (3/4) tieIdx ["alpha"] 8)
          [(8, docScore id (6/5) (3/4) tieIdx ["alpha"] 8)]
        = [(8, docScore id (6/5) (3/4) tieIdx ["alpha"] 8),
           (1, docScore id (6/5) (3/4) tieIdx ["alpha"] 8)] from by
      rw [insertDesc, if_pos (le_refl _)]
      rfl]
  refine ⟨by decide, ⟨docScore id (6/5) (3/4) tieIdx ["alpha"] 8, hne8, hL⟩, ?_, ?_⟩
  · rw [hL]
    rfl
  · intro h
    rw [scoreSortedTieAsc, hL] at h
    rcases List.pairwise_cons.mp h with ⟨hfst, _⟩
    rcases hfst (1, docScore id (6/5) (3/4) tieIdx ["alpha"] 8) (by simp) with h1 | ⟨_, h2⟩
    · exact absurd h1 (lt_irrefl _)
    · have h3 : (8 : ℕ) < 1 := h2
      omega

/-! ## The idf formula (C9) -/

/-- C9: for a fixed document count `N`, the idf value
`log((N - df + 0.5) / (df + 0.5) + 1)` is nonnegative for every
`0 ≤ df ≤ N` and strictly decreasing in `df`. -/
theorem claim_C9 :
    (∀ N df : ℕ, df ≤ N → 0 ≤ idfR N df)
    ∧ ∀ N df₁ df₂ : ℕ, df₁ < df₂ → df₂ ≤ N → idfR N df₂ < idfR N df₁ := by
  have key : ∀ N df : ℕ, ((N : ℝ) - (df : ℝ) + 1/2) / ((df : ℝ) + 1/2) + 1
      = ((N : ℝ) + 1) / ((df : ℝ) + 1/2) := by
    intro N df
    have hpos : (0 : ℝ) < (df : ℝ) + 1/2 := by positivity
    field_simp
    ring
  constructor
  · intro N df h
    unfold idfR
    rw [key]
    apply Real.log_nonneg
    rw [le_div_iff (by positivity)]
    have hc : (df : ℝ) ≤ (N : ℝ) := by exact_mod_cast h
    linarith
  · intro N df₁ df₂ hlt _
    unfold idfR
    rw [key, key]
    apply Real.log_lt_log
    · positivity
    · apply div_lt_div_of_pos_left
      · positivity
      · positivity
      · have hc : (df₁ : ℝ) < (df₂ : ℝ) := by exact_mod_cast hlt
        linarith

/-- C9 witness: concrete instance at `N = 1`: `idf` is nonnegative at
`df = 0` and strictly smaller at `df = 1` than at `df = 0`. -/
theorem claim_C9_witness : (0 : ℝ) ≤ idfR 1 0 ∧ idfR 1 1 < idfR 1 0 :=
  ⟨claim_C9.1 1 0 (by norm_num), claim_C9.2 1 0 1 (by norm_num) (by norm_num)⟩

/-! ## No-crash envelope of the evaluator (C1) -/

theorem evalGo_isSome (idx : InvIndex) :
    ∀ (toks : List PTok) (st : List (Finset ℕ)), rpnSafe st.length toks = true →
      (evalGo idx st toks).isSome = true := by
  intro toks
  induction toks with
  | nil =>
    intro st _
    cases st <;> simp [evalGo]
  | cons t rest ih =>
    intro st h
    cases t with
    | tri a op b =>
      rw [evalGo_tri_push]
      apply ih
      simpa [rpnSafe] using h
    | str t =>
      by_cases h2 : t = "NOT"
      · subst h2
        cases st with
        | nil => simp [rpnSafe] at h
        | cons b st' =>
          cases st' with
          | nil =>
            rw [evalGo_not_one]
            apply ih
            simpa [rpnSafe] using h
          | cons a st'' =>
            rw [evalGo_not_two]
            apply ih
            simpa [rpnSafe] using h
      · by_cases hA : t = "AND"
        · subst hA
          cases st with
          | nil => simp [rpnSafe] at h
          | cons b st' =>
            cases st' with
            | nil => simp [rpnSafe] at h
            | cons a st'' =>
              rw [show evalGo idx (b :: a :: st'') (.str "AND" :: rest)
                    = evalGo idx (mergeAnd a b :: st'') rest from by simp [evalGo]]
              apply ih
              simpa [rpnSafe] using h
        · by_cases hO : t = "OR"
          · subst hO
            cases st with
            | nil => simp [rpnSafe] at h
            | cons b st' =>
              cases st' with
              | nil => simp [rpnSafe] at h
              | cons a st'' =>
                rw [show evalGo idx (b :: a :: st'') (.str "OR" :: rest)
                      = evalGo idx (mergeOr a b :: st'') rest from by simp [evalGo]]
                apply ih
                simpa [rpnSafe] using h
          · rw [evalGo_operand _ _ _ _ hA hO h2]
            apply ih
            simpa [rpnSafe, hA, hO, h2] using h

/-- C1 (amended): `evaluate_query` returns a (possibly empty) list and
never raises as long as every boolean operator in the postfix form finds
its operands (the `rpnSafe` stack-depth check); in particular the empty
query returns the empty list, and unbalanced parentheses alone never make
it unsafe. Dangling operators such as a lone `NOT` or `a AND` do raise
`IndexError` (see the counterexample), so the claim's "never raises for
every malformed query" is too strong. -/
theorem claim_C1_amended (idx : InvIndex) (q : String) (h : rpnSafe 0 (rpnOf q) = true) :
    (∃ l, evaluate_query idx q = some l) ∧ evaluate_query idx "" = some [] := by
  constructor
  · have hs := evalGo_isSome idx (rpnOf q) [] (by simpa using h)
    exact Option.isSome_iff_exists.mp hs
  · rfl

set_option maxRecDepth 10000 in
/-- C1 witness: the unbalanced query `(approach` is safe (the dangling open
paren is drained as a phantom operand) and evaluates without raising. -/
theorem claim_C1_witness :
    rpnSafe 0 (rpnOf "(approach") = true
    ∧ ((∃ l, evaluate_query demoIdx "(approach" = some l)
        ∧ evaluate_query demoIdx "" = some []) :=
  ⟨by decide, claim_C1_amended demoIdx "(approach" (by decide)⟩

/-! ## Indexed terms never contain parentheses (towards C10) -/

theorem toLower_good {ch : Char} (h : isAlnumCI ch = true ∨ ch = '\'' ∨ ch = '-') :
    ¬ Char.toLower ch = '(' ∧ ¬ Char.toLower ch = ')' := by
  rcases h with h | h | h
  · simp only [isAlnumCI, decide_eq_true_eq] at h
    have hlow : Char.toLower ch
        = if ch.toNat ≥ 65 ∧ ch.toNat ≤ 90 then Char.ofNat (ch.toNat + 32) else ch := rfl
    rw [hlow]
    split_ifs with hrange
    · obtain ⟨h1, h2⟩ := hrange
      have hb1 : 97 ≤ ch.toNat + 32 := by omega
      have hb2 : ch.toNat + 32 ≤ 122 := by omega
      constructor <;> intro heq <;>
        (revert heq
         generalize hg : ch.toNat + 32 = m at hb1 hb2
         interval_cases m <;> decide)
    · constructor <;> intro heq
      · have h40 : ch.toNat = 40 := by
          have := congrArg Char.toNat heq
          simpa using this
        rw [h40] at h hrange
        revert h hrange
        decide
      · have h41 : ch.toNat = 41 := by
          have := congrArg Char.toNat heq
          simpa using this
        rw [h41] at h hrange
        revert h hrange
        decide
  · subst h
    exact ⟨by decide, by decide⟩
  · subst h
    exact ⟨by decide, by decide⟩

theorem grabTok_fst_good {c : Char} {cs : List Char} (hc : isAlnumCI c = true) :
    ∀ ch ∈ (grabTok (c :: cs)).1, isAlnumCI ch = true ∨ ch = '\'' ∨ ch = '-' := by
  intro ch hch
  unfold grabTok at hch
  revert hch
  split
  next j rest2 _ =>
    split_ifs with hj
    · split
      next d _ =>
        split_ifs with hd
        · intro hch
          simp only [List.mem_append, List.mem_cons] at hch
          rcases hch with hch | hch | hch
          · exact Or.inl (List.mem_takeWhile_imp hch)
          · subst hch
            rcases hj with hj | hj
            · exact Or.inr (Or.inl hj)
            · exact Or.inr (Or.inr hj)
          · exact Or.inl (List.mem_takeWhile_imp hch)
        · intro hch
          exact Or.inl (List.mem_takeWhile_imp hch)
      next =>
        intro hch
        exact Or.inl (List.mem_takeWhile_imp hch)
    · intro hch
      exact Or.inl (List.mem_takeWhile_imp hch)
  next =>
    intro hch
    exact Or.inl (List.mem_takeWhile_imp hch)

theorem wtAuxF_good : ∀ (fuel : ℕ) (l : List Char) (tok : List Char), tok ∈ wtAuxF fuel l →
    ∀ ch ∈ tok, isAlnumCI ch = true ∨ ch = '\'' ∨ ch = '-' := by
  intro fuel
  induction fuel with
  | zero =>
    intro l tok h
    cases l <;> simp [wtAuxF] at h
  | succ n ih =>
    intro l tok h
    cases l with
    | nil => simp [wtAuxF] at h
    | cons c cs =>
      rw [wtAuxF] at h
      by_cases hc : isAlnumCI c = true
      · rw [if_pos hc] at h
        rcases List.mem_cons.mp h with h1 | h1
        · subst h1
          exact grabTok_fst_good hc
        · exact ih _ _ h1
      · rw [if_neg hc] at h
        exact ih _ _ h

/-- Every token produced by `word_tokenize` is free of parentheses. -/
theorem word_tokenize_no_paren (text : String) :
    ∀ s ∈ word_tokenize text, ¬ s = "(" ∧ ¬ s = ")" := by
  intro s hs
  unfold word_tokenize at hs
  rcases List.mem_map.mp hs with ⟨tok, htok, hmk⟩
  have hchars := wtAuxF_good _ _ _ htok
  constructor <;> intro he
  · have hdata : List.map Char.toLower tok = ['('] := by
      rw [← hmk] at he
      exact congrArg String.data he
    cases tok with
    | nil => simp at hdata
    | cons c cs =>
      have hc : Char.toLower c = '(' := by
        have h2 := congrArg List.head? hdata
        simpa using h2
      exact (toLower_good (hchars c (by simp))).1 hc
  · have hdata : List.map Char.toLower tok = [')'] := by
      rw [← hmk] at he
      exact congrArg String.data he
    cases tok with
    | nil => simp at hdata
    | cons c cs =>
      have hc : Char.toLower c = ')' := by
        have h2 := congrArg List.head? hdata
        simpa using h2
      exact (toLower_good (hchars c (by simp))).2 hc

/-- Every flat token of `preprocess` is free of parentheses. -/
theorem preprocess_no_paren (text : String) :
    ∀ s ∈ (preprocess text).1, ¬ s = "(" ∧ ¬ s = ")" := by
  intro s hs
  unfold preprocess at hs
  by_cases hse : (sent_tokenize text).isEmpty
  · simp only [hse, if_true] at hs
    exact word_tokenize_no_paren text s (List.mem_of_mem_filter hs)
  · simp only [hse, Bool.false_eq_true, if_false] at hs
    rcases List.mem_flatten.mp hs with ⟨grp, hgrp, hsg⟩
    rcases List.mem_map.mp hgrp with ⟨sent, _, hsent⟩
    rw [← hsent] at hsg
    exact word_tokenize_no_paren sent s (List.mem_of_mem_filter hsg)

theorem dappend_member_key {β : Type} {k : String} {x : β} {l : List (String × List β)}
    {e : String × List β} (he : e ∈ dappend k x l) :
    e.1 = k ∨ ∃ e' ∈ l, e'.1 = e.1 := by
  induction l with
  | nil =>
    simp only [dappend, List.mem_singleton] at he
    rw [he]
    exact Or.inl rfl
  | cons p ps ih =>
    rw [dappend] at he
    split_ifs at he with hp
    · rcases List.mem_cons.mp he with h1 | h1
      · rw [h1]
        exact Or.inl hp
      · exact Or.inr ⟨e, List.mem_cons.mpr (Or.inr h1), rfl⟩
    · rcases List.mem_cons.mp he with h1 | h1
      · exact Or.inr ⟨p, List.mem_cons.mpr (Or.inl rfl), by rw [h1]⟩
      · rcases ih h1 with h2 | ⟨e', he', hk⟩
        · exact Or.inl h2
        · exact Or.inr ⟨e', List.mem_cons.mpr (Or.inr he'), hk⟩

theorem pbtGo_keys : ∀ (flat : List String) (acc : List (String × List ℕ)) (pos : ℕ)
    (e : String × List ℕ), e ∈ pbtGo acc pos flat →
    (∃ e' ∈ acc, e'.1 = e.1) ∨ e.1 ∈ flat := by
  intro flat
  induction flat with
  | nil =>
    intro acc pos e he
    exact Or.inl ⟨e, he, rfl⟩
  | cons t rest ih =>
    intro acc pos e he
    rw [pbtGo] at he
    rcases ih _ _ _ he with ⟨e', he', hk⟩ | hk
    · rcases dappend_member_key he' with h1 | ⟨e'', he'', hk''⟩
      · have hek : e.1 = t := by rw [← hk, h1]
        rw [hek]
        exact Or.inr (List.mem_cons_self _ _)
      · exact Or.inl ⟨e'', he'', by rw [hk'', hk]⟩
    · exact Or.inr (List.mem_cons.mpr (Or.inr hk))

theorem dlookup_dappend_ne {β : Type} {t k : String} (x : β) (l : List (String × List β))
    (h : ¬ k = t) : dlookup t (dappend k x l) = dlookup t l := by
  induction l with
  | nil => simp [dappend, dlookup, h]
  | cons p ps ih =>
    rw [dappend]
    split_ifs with hp
    · rw [dlookup, dlookup]
      split_ifs with he
      · exact absurd (hp ▸ he) (by simpa using h)
      · rfl
    · rw [dlookup, dlookup]
      split_ifs with he
      · rfl
      · exact ih

theorem foldl_dappend_none {β γ : Type} (f : String × β → γ) {t : String} :
    ∀ (items : List (String × β)) (P : List (String × List γ)),
      dlookup t P = none → (∀ e ∈ items, ¬ e.1 = t) →
      dlookup t (items.foldl (fun P tp => dappend tp.1 (f tp) P) P) = none := by
  intro items
  induction items with
  | nil =>
    intro P h _
    exact h
  | cons e rest ih =>
    intro P h hk
    rw [List.foldl_cons]
    exact ih _
      (by rw [dlookup_dappend_ne _ _ (hk e (List.mem_cons_self _ _))]; exact h)
      (fun e' he' => hk e' (List.mem_cons.mpr (Or.inr he')))

theorem addDoc_postings_none {t : String} (idx : InvIndex) (d : ℕ) (text : String)
    (h0 : dlookup t idx.postings = none)
    (hflat : ∀ s ∈ (preprocess text).1, ¬ s = t) :
    dlookup t (addDoc idx d text).postings = none := by
  have hpost : (addDoc idx d text).postings
      = (positionsByTerm (preprocess text).1).foldl
          (fun P tp => dappend tp.1 (d, tp.2) P) idx.postings := rfl
  rw [hpost]
  apply foldl_dappend_none (fun tp => (d, tp.2)) _ _ h0
  intro e he hk
  rcases pbtGo_keys _ _ _ _ he with ⟨e', he', _⟩ | hmem
  · simp at he'
  · exact hflat e.1 hmem hk

theorem dlookup_map_val {β γ : Type} (t : String) (l : List (String × β)) (f : β → γ) :
    dlookup t (l.map (fun p => (p.1, f p.2))) = (dlookup t l).map f := by
  induction l with
  | nil => simp [dlookup]
  | cons p ps ih =>
    rw [List.map_cons, dlookup, dlookup]
    split_ifs with he
    · rfl
    · exact ih

theorem foldl_addDoc_none {t : String} : ∀ (ds : List (ℕ × String)) (idx : InvIndex),
    (∀ text s, s ∈ (preprocess text).1 → ¬ s = t) →
    dlookup t idx.postings = none →
    dlookup t (ds.foldl (fun i d => addDoc i d.1 d.2) idx).postings = none := by
  intro ds
  induction ds with
  | nil =>
    intro idx _ h
    exact h
  | cons doc rest ih =>
    intro idx ht h
    rw [List.foldl_cons]
    exact ih _ ht (addDoc_postings_none idx doc.1 doc.2 h (fun s hs => ht doc.2 s hs))

/-- A term that never appears in any preprocessed document has no postings
entry in any built index. -/
theorem build_postings_none (docs : List (ℕ × String)) (t : String)
    (ht : ∀ text s, s ∈ (preprocess text).1 → ¬ s = t) :
    dlookup t (InvIndex.build docs).postings = none := by
  have hpost : (InvIndex.build docs).postings
      = ((docs.foldl (fun i d => addDoc i d.1 d.2) ⟨[], [], 0, []⟩).postings).map
          (fun tp => (tp.1, sortByDoc tp.2)) := rfl
  rw [hpost, dlookup_map_val, Option.map_eq_none']
  exact foldl_addDoc_none docs ⟨[], [], 0, []⟩ ht rfl

theorem withinN_postings_empty (idx : InvIndex) (a b : String) (n : ℕ)
    (h : idx.get_postings a = []) : withinN idx a b n = ∅ := by
  simp [withinN, h]

theorem sameSentence_postings_empty (idx : InvIndex) (a b : String)
    (h : idx.get_postings a = []) : sameSentence idx a b = ∅ := by
  simp [sameSentence, h]

/-! ## The pre-packing of parenthesized proximity queries (C10) -/

theorem prePack_chunk : ∀ (L M : List String), (∀ x ∈ L, isProxOpStr x = false) →
    (∀ h t, M = h :: t → isProxOpStr h = false) →
    prePack (L ++ M) = L.map PTok.str ++ prePack M := by
  intro L
  induction L with
  | nil =>
    intro M _ _
    simp
  | cons a L ih =>
    intro M hL hM
    have hL' : ∀ x ∈ L, isProxOpStr x = false := fun x hx => hL x (by simp [hx])
    rw [List.cons_append]
    rcases hLM : L ++ M with _ | ⟨b, rest2⟩
    · obtain ⟨hLnil, hMnil⟩ := List.append_eq_nil.mp hLM
      subst hLnil
      subst hMnil
      rfl
    · have hb : isProxOpStr b = false := by
        cases L with
        | nil => exact hM b rest2 (by simpa using hLM)
        | cons x L2 =>
          have hxb : x = b := by
            have h2 := congrArg List.head? hLM
            simpa using h2
          rw [← hxb]
          exact hL x (by simp)
      rcases rest2 with _ | ⟨c, rest3⟩
      · -- L ++ M is a single token
        cases L with
        | nil =>
          have hMb : M = [b] := by simpa using hLM
          subst hMb
          simp [prePack]
        | cons x L2 =>
          rw [List.cons_append] at hLM
          injection hLM with hx hrest
          obtain ⟨hL2, hMnil⟩ := List.append_eq_nil.mp hrest
          subst hL2
          subst hMnil
          subst hx
          simp [prePack]
      · rw [show prePack (a :: b :: c :: rest3) = PTok.str a :: prePack (b :: c :: rest3) from by
          rw [prePack]
          rw [if_neg (by rw [hb]; exact Bool.false_ne_true)]]
        rw [← hLM]
        rw [ih M hL' hM]
        simp

/-- C10 (implicit behavior): in a query of the form `(X) op (Y)` for a
proximity operator `op`, the pre-packing step packs the literal parenthesis
tokens around `op`: the packed triple is `(")", op, "(")`, the
sub-expressions `X` and `Y` are never its operands, the parenthesis tokens
have no postings in any built index, and the proximity unit therefore
evaluates to the empty document set. Stated for operand lists `X`, `Y`
containing no proximity-operator tokens (otherwise the scan would consume
tokens differently before reaching the closing parenthesis). -/
theorem claim_C10 (docs : List (ℕ × String)) (X Y : List String) (op : String)
    (hX : ∀ x ∈ X, isProxOpStr x = false) (hY : ∀ y ∈ Y, isProxOpStr y = false)
    (hop : isProxOpStr op = true) :
    prePack ("(" :: X ++ ")" :: op :: "(" :: Y ++ [")"])
      = PTok.str "(" :: X.map PTok.str
          ++ PTok.tri ")" op "(" :: Y.map PTok.str ++ [PTok.str ")"]
    ∧ (InvIndex.build docs).get_postings ")" = []
    ∧ (InvIndex.build docs).get_postings "(" = []
    ∧ toDocs (InvIndex.build docs) (PTok.tri ")" op "(") = ∅ := by
  have hgpR : (InvIndex.build docs).get_postings ")" = [] := by
    rw [InvIndex.get_postings,
      build_postings_none docs ")" (fun text s hs => (preprocess_no_paren text s hs).2)]
    rfl
  have hgpL : (InvIndex.build docs).get_postings "(" = [] := by
    rw [InvIndex.get_postings,
      build_postings_none docs "(" (fun text s hs => (preprocess_no_paren text s hs).1)]
    rfl
  refine ⟨?_, hgpR, hgpL, ?_⟩
  · have hfirst : prePack (("(" :: X) ++ (")" :: op :: "(" :: (Y ++ [")"])))
        = ("(" :: X).map PTok.str ++ prePack (")" :: op :: "(" :: (Y ++ [")"])) := by
      apply prePack_chunk
      · intro x hx
        rcases List.mem_cons.mp hx with h1 | h1
        · rw [h1]; decide
        · exact hX x h1
      · intro h t heq
        have : h = ")" := by
          have := congrArg List.head? heq
          simpa using this.symm
        rw [this]
        decide
    have hmid : prePack (")" :: op :: "(" :: (Y ++ [")"]))
        = PTok.tri ")" op "(" :: prePack (Y ++ [")"]) :=
      prePack_three_op _ _ _ _ hop
    have hlast : prePack (Y ++ [")"]) = Y.map PTok.str ++ prePack [")"] := by
      apply prePack_chunk _ _ hY
      intro h t heq
      have : h = ")" := by
        have := congrArg List.head? heq
        simpa using this.symm
      rw [this]
      decide
    calc prePack ("(" :: X ++ ")" :: op :: "(" :: Y ++ [")"])
        = prePack (("(" :: X) ++ (")" :: op :: "(" :: (Y ++ [")"]))) := by
          simp
      _ = ("(" :: X).map PTok.str ++ prePack (")" :: op :: "(" :: (Y ++ [")"])) := hfirst
      _ = ("(" :: X).map PTok.str ++ (PTok.tri ")" op "(" :: prePack (Y ++ [")"])) := by
          rw [hmid]
      _ = ("(" :: X).map PTok.str
            ++ (PTok.tri ")" op "(" :: (Y.map PTok.str ++ prePack [")"])) := by
          rw [hlast]
      _ = PTok.str "(" :: X.map PTok.str
            ++ PTok.tri ")" op "(" :: Y.map PTok.str ++ [PTok.str ")"] := by
          simp [prePack]
  · have hsq1 : stripQuotes ")" = ")" := rfl
    have hsq2 : stripQuotes "(" = "(" := rfl
    simp only [toDocs, hsq1, hsq2]
    split_ifs
    · exact sameSentence_postings_empty _ _ _ hgpR
    · exact withinN_postings_empty _ _ _ _ hgpR
    · exact withinN_postings_empty _ _ _ _ hgpR

set_option maxRecDepth 10000 in
/-- C10 witness: the demo query `(approach AND mountainous) /s (cfit OR
terrain)` on the demo corpus — the packed proximity triple is
`(")", "/s", "(")` and it evaluates to the empty set. -/
theorem claim_C10_witness :
    prePack ("(" :: ["approach", "and", "mountainous"] ++ ")" :: "/s" :: "("
        :: ["cfit", "or", "terrain"] ++ [")"])
      = PTok.str "(" :: (["approach", "and", "mountainous"] : List String).map PTok.str
          ++ PTok.tri ")" "/s" "(" :: (["cfit", "or", "terrain"] : List String).map PTok.str
          ++ [PTok.str ")"]
    ∧ (InvIndex.build DOCS).get_postings ")" = []
    ∧ (InvIndex.build DOCS).get_postings "(" = []
    ∧ toDocs (InvIndex.build DOCS) (PTok.tri ")" "/s" "(") = ∅ :=
  claim_C10 DOCS ["approach", "and", "mountainous"] ["cfit", "or", "terrain"] "/s"
    (by decide) (by decide) (by decide)



/-! ## Sentence-boundary invariants of `build` (towards C6) -/

theorem boundsGo_contiguous : ∀ (st : List (List String)) (c : ℤ),
    contiguousFrom c (boundsGo c st) := by
  intro st
  induction st with
  | nil => intro c; trivial
  | cons s rest ih =>
    intro c
    rw [boundsGo, contiguousFrom]
    refine ⟨rfl, ?_⟩
    have he : c + (s.length : ℤ) - 1 + 1 = c + s.length := by ring
    rw [he]
    exact ih _

theorem boundsGo_width : ∀ (st : List (List String)) (c : ℤ),
    ((boundsGo c st).map (fun se => se.2 + 1 - se.1)).sum = ((st.map List.length).sum : ℤ) := by
  intro st
  induction st with
  | nil => intro c; simp [boundsGo]
  | cons s rest ih =>
    intro c
    rw [boundsGo, List.map_cons, List.sum_cons, ih, List.map_cons, List.sum_cons]
    push_cast
    ring

theorem boundsGo_posWidth : ∀ (st : List (List String)) (c : ℤ),
    ∀ se ∈ boundsGo c st, se.1 ≤ se.2 + 1 := by
  intro st
  induction st with
  | nil => intro c se h; simp [boundsGo] at h
  | cons s rest ih =>
    intro c se h
    rw [boundsGo] at h
    rcases List.mem_cons.mp h with h1 | h1
    · rw [h1]
      simp only []
      have hnn : (0 : ℤ) ≤ (s.length : ℤ) := Int.ofNat_nonneg _
      omega
    · exact ih _ se h1

theorem preprocess_flat_eq (text : String) :
    (preprocess text).1 = (preprocess text).2.flatten := by
  unfold preprocess
  by_cases h : (sent_tokenize text).isEmpty <;> simp [h]

theorem nlookup_nset_self {β : Type} (k : ℕ) (v : β) (l : List (ℕ × β)) :
    nlookup k (nset k v l) = some v := by
  induction l with
  | nil => simp [nset, nlookup]
  | cons p ps ih =>
    rw [nset]
    split_ifs with hp
    · simp [nlookup]
    · rw [nlookup]
      rw [if_neg hp]
      exact ih

theorem nlookup_nset_ne {β : Type} (k k' : ℕ) (v : β) (l : List (ℕ × β)) (h : ¬ k' = k) :
    nlookup k (nset k' v l) = nlookup k l := by
  induction l with
  | nil => simp [nset, nlookup, h]
  | cons p ps ih =>
    rw [nset]
    split_ifs with hp
    · rw [nlookup, nlookup, if_neg h, if_neg (show ¬ p.1 = k from by rw [hp]; exact h)]
    · rw [nlookup, nlookup]
      split_ifs with he
      · rfl
      · exact ih

/-- After the build fold, a document id not occurring later keeps its
`doc_len` and `sent_bounds` entries. -/
theorem foldl_addDoc_preserve : ∀ (ds : List (ℕ × String)) (idx : InvIndex) (d : ℕ),
    d ∉ ds.map Prod.fst →
    nlookup d (ds.foldl (fun i p => addDoc i p.1 p.2) idx).sent_bounds
        = nlookup d idx.sent_bounds
    ∧ nlookup d (ds.foldl (fun i p => addDoc i p.1 p.2) idx).doc_len
        = nlookup d idx.doc_len := by
  intro ds
  induction ds with
  | nil =>
    intro idx d _
    exact ⟨rfl, rfl⟩
  | cons p rest ih =>
    intro idx d hd
    have hdp : ¬ p.1 = d := by
      intro he
      exact hd (by rw [List.map_cons, he]; exact List.mem_cons_self _ _)
    have hdr : d ∉ rest.map Prod.fst := fun hm => hd (by simp [hm])
    rw [List.foldl_cons]
    obtain ⟨h1, h2⟩ := ih (addDoc idx p.1 p.2) d hdr
    refine ⟨?_, ?_⟩
    · rw [h1]
      rw [show (addDoc idx p.1 p.2).sent_bounds
            = nset p.1 (boundsGo 0 (preprocess p.2).2) idx.sent_bounds from rfl]
      exact nlookup_nset_ne _ _ _ _ hdp
    · rw [h2]
      rw [show (addDoc idx p.1 p.2).doc_len
            = nset p.1 (preprocess p.2).1.length idx.doc_len from rfl]
      exact nlookup_nset_ne _ _ _ _ hdp

/-- After the build fold, each document's `sent_bounds` and `doc_len` entries
hold the values computed from its text (given distinct ids). -/
theorem foldl_addDoc_lookup : ∀ (ds : List (ℕ × String)) (idx : InvIndex) (d : ℕ) (text : String),
    (d, text) ∈ ds → (ds.map Prod.fst).Nodup →
    nlookup d (ds.foldl (fun i p => addDoc i p.1 p.2) idx).sent_bounds
        = some (boundsGo 0 (preprocess text).2)
    ∧ nlookup d (ds.foldl (fun i p => addDoc i p.1 p.2) idx).doc_len
        = some (preprocess text).1.length := by
  intro ds
  induction ds with
  | nil =>
    intro idx d text hmem _
    simp at hmem
  | cons p rest ih =>
    intro idx d text hmem hnd
    rcases p with ⟨pd, pt⟩
    rw [List.map_cons, List.nodup_cons] at hnd
    obtain ⟨hp1, hnd2⟩ := hnd
    rw [List.foldl_cons]
    rcases List.mem_cons.mp hmem with h1 | h1
    · injection h1 with hd ht
      subst hd
      subst ht
      have hnotin : d ∉ rest.map Prod.fst := hp1
      obtain ⟨hpre1, hpre2⟩ := foldl_addDoc_preserve rest (addDoc idx d text) d hnotin
      refine ⟨?_, ?_⟩
      · rw [hpre1]
        rw [show (addDoc idx d text).sent_bounds
              = nset d (boundsGo 0 (preprocess text).2) idx.sent_bounds from rfl]
        exact nlookup_nset_self _ _ _
      · rw [hpre2]
        rw [show (addDoc idx d text).doc_len
              = nset d (preprocess text).1.length idx.doc_len from rfl]
        exact nlookup_nset_self _ _ _
    · exact ih _ d text h1 hnd2


/-! ## Postings invariants of `build` (towards C6) -/

theorem dappend_members {β : Type} {k : String} {x : β} {l : List (String × List β)}
    {e : String × List β} (he : e ∈ dappend k x l) :
    e ∈ l ∨ (e.1 = k ∧ (e.2 = [x] ∨ ∃ v, (k, v) ∈ l ∧ e.2 = v ++ [x])) := by
  induction l with
  | nil =>
    simp only [dappend, List.mem_singleton] at he
    exact Or.inr ⟨by rw [he], Or.inl (by rw [he])⟩
  | cons p ps ih =>
    rw [dappend] at he
    split_ifs at he with hp
    · rcases List.mem_cons.mp he with h1 | h1
      · refine Or.inr ⟨by rw [h1]; exact hp, Or.inr ⟨p.2, ?_, by rw [h1]⟩⟩
        have hkp : (k, p.2) = p := by
          rw [← hp]
        rw [hkp]
        exact List.mem_cons_self _ _
      · exact Or.inl (List.mem_cons.mpr (Or.inr h1))
    · rcases List.mem_cons.mp he with h1 | h1
      · exact Or.inl (List.mem_cons.mpr (Or.inl h1))
      · rcases ih h1 with h2 | ⟨hk, h3⟩
        · exact Or.inl (List.mem_cons.mpr (Or.inr h2))
        · refine Or.inr ⟨hk, ?_⟩
          rcases h3 with h3 | ⟨v, hv, he2⟩
          · exact Or.inl h3
          · exact Or.inr ⟨v, List.mem_cons.mpr (Or.inr hv), he2⟩

theorem pbtGo_chain : ∀ (flat : List String) (acc : List (String × List ℕ)) (pos : ℕ),
    (∀ e ∈ acc, (∀ x ∈ e.2, x < pos) ∧ List.Chain' (· < ·) e.2) →
    ∀ e ∈ pbtGo acc pos flat, List.Chain' (· < ·) e.2 := by
  intro flat
  induction flat with
  | nil =>
    intro acc pos hacc e he
    exact (hacc e he).2
  | cons t rest ih =>
    intro acc pos hacc e he
    rw [pbtGo] at he
    refine ih (dappend t pos acc) (pos + 1) ?_ e he
    intro q hq
    rcases dappend_members hq with h1 | ⟨_, h2⟩
    · obtain ⟨hb, hc⟩ := hacc q h1
      exact ⟨fun x hx => Nat.lt_succ_of_lt (hb x hx), hc⟩
    · rcases h2 with h2 | ⟨v, hv, h2⟩
      · rw [h2]
        exact ⟨by simp, List.chain'_singleton _⟩
      · obtain ⟨hbv, hcv⟩ := hacc (t, v) hv
        rw [h2]
        constructor
        · intro x hx
          rcases List.mem_append.mp hx with hx | hx
          · exact Nat.lt_succ_of_lt (hbv x hx)
          · simp only [List.mem_singleton] at hx
            rw [hx]
            exact Nat.lt_succ_self _
        · rw [List.chain'_append]
          refine ⟨hcv, List.chain'_singleton _, ?_⟩
          intro y hy z hz
          simp only [List.head?_cons, Option.mem_def, Option.some.injEq] at hz
          rw [← hz]
          exact hbv y (List.mem_of_mem_getLast? hy)

theorem dappend_keys {β : Type} (k : String) (x : β) (l : List (String × List β)) :
    (dappend k x l).map Prod.fst
      = if k ∈ l.map Prod.fst then l.map Prod.fst else l.map Prod.fst ++ [k] := by
  induction l with
  | nil => simp [dappend]
  | cons p ps ih =>
    by_cases hp : p.1 = k
    · rw [dappend, if_pos hp]
      rw [if_pos (show k ∈ (p :: ps).map Prod.fst from by
        rw [List.map_cons, ← hp]
        exact List.mem_cons_self _ _)]
      rfl
    · rw [dappend, if_neg hp]
      rw [List.map_cons, List.map_cons, ih]
      by_cases hk : k ∈ ps.map Prod.fst
      · rw [if_pos hk, if_pos (List.mem_cons.mpr (Or.inr hk))]
      · rw [if_neg hk]
        rw [if_neg (show k ∉ p.1 :: ps.map Prod.fst from by
          intro hc
          rcases List.mem_cons.mp hc with h | h
          · exact hp h.symm
          · exact hk h)]
        rw [List.cons_append]

theorem dappend_keys_nodup {β : Type} {k : String} {x : β} {l : List (String × List β)}
    (h : (l.map Prod.fst).Nodup) : ((dappend k x l).map Prod.fst).Nodup := by
  rw [dappend_keys]
  split_ifs with hk
  · exact h
  · rw [List.nodup_append]
    refine ⟨h, List.nodup_singleton _, ?_⟩
    intro a ha hb
    simp only [List.mem_singleton] at hb
    rw [hb] at ha
    exact hk ha

theorem pbtGo_keys_nodup : ∀ (flat : List String) (acc : List (String × List ℕ)) (pos : ℕ),
    (acc.map Prod.fst).Nodup → ((pbtGo acc pos flat).map Prod.fst).Nodup := by
  intro flat
  induction flat with
  | nil =>
    intro acc pos h
    exact h
  | cons t rest ih =>
    intro acc pos h
    rw [pbtGo]
    exact ih _ _ (dappend_keys_nodup h)

theorem fold_dappend_inv {dnew : ℕ} {ids : List ℕ} (hnew : dnew ∉ ids) :
    ∀ (items : List (String × List ℕ)) (done : List String)
      (P : List (String × List (ℕ × List ℕ))),
      (items.map Prod.fst).Nodup →
      (∀ k ∈ done, k ∉ items.map Prod.fst) →
      (∀ e ∈ items, List.Chain' (· < ·) e.2) →
      (∀ e ∈ P, e.2 ≠ [] ∧ (e.2.map Prod.fst).Nodup ∧
        ∀ q ∈ e.2, (q.1 ∈ ids ∨ (q.1 = dnew ∧ e.1 ∈ done)) ∧ List.Chain' (· < ·) q.2) →
      ∀ e ∈ items.foldl (fun P tp => dappend tp.1 (dnew, tp.2) P) P,
        e.2 ≠ [] ∧ (e.2.map Prod.fst).Nodup ∧
          ∀ q ∈ e.2, (q.1 ∈ ids ∨ q.1 = dnew) ∧ List.Chain' (· < ·) q.2 := by
  intro items
  induction items with
  | nil =>
    intro done P _ _ _ hP e he
    obtain ⟨h1, h2, h3⟩ := hP e he
    exact ⟨h1, h2, fun q hq => ⟨(h3 q hq).1.imp id And.left, (h3 q hq).2⟩⟩
  | cons tp rest ih =>
    intro done P hnd hdone hch hP
    rw [List.map_cons, List.nodup_cons] at hnd
    obtain ⟨htp, hnd2⟩ := hnd
    have htpdone : tp.1 ∉ done := by
      intro hc
      exact hdone tp.1 hc (by rw [List.map_cons]; exact List.mem_cons_self _ _)
    rw [List.foldl_cons]
    refine ih (tp.1 :: done) (dappend tp.1 (dnew, tp.2) P) hnd2 ?_ ?_ ?_
    · intro k hk
      rcases List.mem_cons.mp hk with h | h
      · rw [h]
        exact htp
      · intro hc
        exact hdone k h (by rw [List.map_cons]; exact List.mem_cons.mpr (Or.inr hc))
    · exact fun e hee => hch e (List.mem_cons.mpr (Or.inr hee))
    · intro e he
      rcases dappend_members he with h1 | ⟨hk1, h2⟩
      · obtain ⟨h1a, h1b, h1c⟩ := hP e h1
        refine ⟨h1a, h1b, fun q hq => ⟨?_, (h1c q hq).2⟩⟩
        rcases (h1c q hq).1 with h | ⟨ha, hb⟩
        · exact Or.inl h
        · exact Or.inr ⟨ha, List.mem_cons.mpr (Or.inr hb)⟩
      · rcases h2 with h2 | ⟨v, hv, h2⟩
        · rw [h2]
          refine ⟨by simp, by simp, ?_⟩
          intro q hq
          simp only [List.mem_singleton] at hq
          rw [hq]
          exact ⟨Or.inr ⟨rfl, by rw [hk1]; exact List.mem_cons_self _ _⟩,
            hch tp (List.mem_cons_self _ _)⟩
      -- remaining case: e.2 = v ++ [(dnew, tp.2)] with (tp.1, v) ∈ P
        · obtain ⟨hva, hvb, hvc⟩ := hP (tp.1, v) hv
          have hvnotd : ∀ q ∈ v, q.1 ≠ dnew := by
            intro q hq hc
            rcases (hvc q hq).1 with h | ⟨_, hdone2⟩
            · rw [hc] at h
              exact hnew h
            · exact htpdone hdone2
          rw [h2]
          refine ⟨by simp, ?_, ?_⟩
          · rw [List.map_append, List.nodup_append]
            refine ⟨hvb, by simp, ?_⟩
            intro a ha hb
            simp only [List.map_cons, List.map_nil, List.mem_singleton] at hb
            rcases List.mem_map.mp ha with ⟨q, hq, hqa⟩
            exact hvnotd q hq (by rw [hqa, hb])
          · intro q hq
            rcases List.mem_append.mp hq with hq | hq
            · refine ⟨?_, (hvc q hq).2⟩
              rcases (hvc q hq).1 with h | ⟨ha, hb⟩
              · exact Or.inl h
              · exact absurd hb htpdone
            · simp only [List.mem_singleton] at hq
              rw [hq]
              exact ⟨Or.inr ⟨rfl, by rw [hk1]; exact List.mem_cons_self _ _⟩,
                hch tp (List.mem_cons_self _ _)⟩

theorem addDoc_post_inv (idx : InvIndex) (d : ℕ) (text : String) (ids : List ℕ)
    (hnew : d ∉ ids) (hinv : PostInv ids idx.postings) :
    PostInv (d :: ids) (addDoc idx d text).postings := by
  have hpost : (addDoc idx d text).postings
      = (positionsByTerm (preprocess text).1).foldl
          (fun P tp => dappend tp.1 (d, tp.2) P) idx.postings := rfl
  rw [PostInv, hpost]
  intro e he
  have hmain := fold_dappend_inv hnew (positionsByTerm (preprocess text).1) [] idx.postings
    (pbtGo_keys_nodup _ _ _ (by simp))
    (by intro k hk; simp at hk)
    (pbtGo_chain _ _ _ (by intro q hq; simp at hq))
    (by
      intro q hq
      obtain ⟨h1, h2, h3⟩ := hinv q hq
      exact ⟨h1, h2, fun r hr => ⟨Or.inl (h3 r hr).1, (h3 r hr).2⟩⟩)
    e he
  obtain ⟨h1, h2, h3⟩ := hmain
  refine ⟨h1, h2, fun q hq => ⟨?_, (h3 q hq).2⟩⟩
  rcases (h3 q hq).1 with h | h
  · exact List.mem_cons.mpr (Or.inr h)
  · rw [h]
    exact List.mem_cons_self _ _

theorem foldl_addDoc_inv : ∀ (ds : List (ℕ × String)) (idx : InvIndex) (ids : List ℕ),
    (ds.map Prod.fst).Nodup →
    (∀ i ∈ ids, i ∉ ds.map Prod.fst) →
    PostInv ids idx.postings →
    ∃ ids2, PostInv ids2 (ds.foldl (fun i p => addDoc i p.1 p.2) idx).postings := by
  intro ds
  induction ds with
  | nil =>
    intro idx ids _ _ h
    exact ⟨ids, h⟩
  | cons p rest ih =>
    intro idx ids hnd hdisj hinv
    rw [List.map_cons, List.nodup_cons] at hnd
    obtain ⟨hp1, hnd2⟩ := hnd
    rw [List.foldl_cons]
    refine ih (addDoc idx p.1 p.2) (p.1 :: ids) hnd2 ?_ ?_
    · intro i hi
      rcases List.mem_cons.mp hi with h | h
      · rw [h]
        exact hp1
      · intro hc
        exact hdisj i h (by rw [List.map_cons]; exact List.mem_cons.mpr (Or.inr hc))
    · refine addDoc_post_inv _ _ _ _ ?_ hinv
      intro hc
      exact hdisj p.1 hc (by rw [List.map_cons]; exact List.mem_cons_self _ _)



/-! ## The per-term doc-id sort of `build` (towards C6) -/

theorem insertByDoc_perm (x : ℕ × List ℕ) :
    ∀ l : List (ℕ × List ℕ), (insertByDoc x l).Perm (x :: l) := by
  intro l
  induction l with
  | nil => exact List.Perm.refl _
  | cons y ys ih =>
    rw [insertByDoc]
    split_ifs with hc
    · exact (ih.cons y).trans (List.Perm.swap x y ys)
    · exact List.Perm.refl _

theorem sortByDoc_perm (l : List (ℕ × List ℕ)) : (sortByDoc l).Perm l := by
  suffices h : ∀ (l acc : List (ℕ × List ℕ)),
      (l.foldl (fun acc x => insertByDoc x acc) acc).Perm (acc ++ l) by
    simpa using h l []
  intro l
  induction l with
  | nil =>
    intro acc
    simp
  | cons x xs ih =>
    intro acc
    rw [List.foldl_cons]
    refine (ih (insertByDoc x acc)).trans ?_
    refine ((insertByDoc_perm x acc).append_right xs).trans ?_
    rw [List.cons_append]
    exact List.perm_middle.symm

theorem insertByDoc_sorted {x : ℕ × List ℕ} {l : List (ℕ × List ℕ)}
    (h : l.Pairwise (fun a b => a.1 ≤ b.1)) :
    (insertByDoc x l).Pairwise (fun a b => a.1 ≤ b.1) := by
  induction l with
  | nil => simp [insertByDoc]
  | cons y ys ih =>
    rw [List.pairwise_cons] at h
    obtain ⟨hy, hys⟩ := h
    rw [insertByDoc]
    split_ifs with hc
    · rw [List.pairwise_cons]
      refine ⟨?_, ih hys⟩
      intro z hz
      rcases List.mem_cons.mp ((insertByDoc_perm x ys).mem_iff.mp hz) with h1 | h1
      · rw [h1]
        exact hc
      · exact hy z h1
    · push_neg at hc
      rw [List.pairwise_cons]
      constructor
      · intro z hz
        rcases List.mem_cons.mp hz with h1 | h1
        · rw [h1]
          exact le_of_lt hc
        · exact le_trans (le_of_lt hc) (hy z h1)
      · exact List.pairwise_cons.mpr ⟨hy, hys⟩

theorem sortByDoc_sorted (l : List (ℕ × List ℕ)) :
    (sortByDoc l).Pairwise (fun a b => a.1 ≤ b.1) := by
  suffices h : ∀ (l acc : List (ℕ × List ℕ)), acc.Pairwise (fun a b => a.1 ≤ b.1) →
      (l.foldl (fun acc x => insertByDoc x acc) acc).Pairwise (fun a b => a.1 ≤ b.1) by
    exact h l [] (by simp)
  intro l
  induction l with
  | nil =>
    intro acc hacc
    exact hacc
  | cons x xs ih =>
    intro acc hacc
    exact ih (insertByDoc x acc) (insertByDoc_sorted hacc)

/-- C6: after `build` on a collection with distinct document ids, every
stored posting list is non-empty with strictly ascending document ids and
strictly ascending positions inside each posting, and every document's
sentence boundaries are contiguous from position 0, each of nonnegative
width, together covering exactly `doc_len[document]` positions. -/
theorem claim_C6 (docs : List (ℕ × String)) (hnd : (docs.map Prod.fst).Nodup) :
    (∀ t pl, (t, pl) ∈ (InvIndex.build docs).postings →
      pl ≠ [] ∧ List.Chain' (· < ·) (pl.map Prod.fst)
        ∧ ∀ q ∈ pl, List.Chain' (· < ·) q.2)
    ∧ ∀ d, d ∈ docs.map Prod.fst →
        contiguousFrom 0 ((InvIndex.build docs).sentence_boundaries d)
        ∧ (∀ se ∈ (InvIndex.build docs).sentence_boundaries d, se.1 ≤ se.2 + 1)
        ∧ (((InvIndex.build docs).sentence_boundaries d).map (fun se => se.2 + 1 - se.1)).sum
            = ((InvIndex.build docs).docLenOf d : ℤ) := by
  constructor
  · intro t pl hmem
    have hpost : (InvIndex.build docs).postings
        = ((docs.foldl (fun i p => addDoc i p.1 p.2) ⟨[], [], 0, []⟩).postings).map
            (fun tp => (tp.1, sortByDoc tp.2)) := rfl
    rw [hpost] at hmem
    rcases List.mem_map.mp hmem with ⟨⟨t0, pl0⟩, hmem0, heq⟩
    injection heq with ht hpl
    obtain ⟨ids2, hinv⟩ := foldl_addDoc_inv docs ⟨[], [], 0, []⟩ [] hnd
      (by intro i hi; simp at hi) (by intro e he; simp at he)
    obtain ⟨h1, h2, h3⟩ := hinv (t0, pl0) hmem0
    have hperm := sortByDoc_perm pl0
    refine ⟨?_, ?_, ?_⟩
    · rw [← hpl]
      intro hc
      rw [hc] at hperm
      exact h1 hperm.nil_eq.symm
    · rw [← hpl]
      have hsorted := sortByDoc_sorted pl0
      have hnodup : ((sortByDoc pl0).map Prod.fst).Nodup :=
        ((hperm.map Prod.fst).nodup_iff).mpr h2
      have hne : (sortByDoc pl0).Pairwise (fun a b => a.1 ≠ b.1) :=
        (List.pairwise_map).mp hnodup
      have hpair : (sortByDoc pl0).Pairwise (fun a b => a.1 < b.1) :=
        (hsorted.and hne).imp (fun hab => lt_of_le_of_ne hab.1 hab.2)
      exact List.Pairwise.chain' ((List.pairwise_map).mpr hpair)
    · intro q hq
      rw [← hpl] at hq
      exact (h3 q (hperm.mem_iff.mp hq)).2
  · intro d hd
    rcases List.mem_map.mp hd with ⟨p, hmem, hfst⟩
    rcases p with ⟨d0, text⟩
    simp only [] at hfst
    subst hfst
    obtain ⟨hsb, hdl⟩ := foldl_addDoc_lookup docs ⟨[], [], 0, []⟩ d0 text hmem hnd
    have hsb2 : (InvIndex.build docs).sentence_boundaries d0
        = boundsGo 0 (preprocess text).2 := by
      rw [InvIndex.sentence_boundaries]
      rw [show (InvIndex.build docs).sent_bounds
            = (docs.foldl (fun i p => addDoc i p.1 p.2) ⟨[], [], 0, []⟩).sent_bounds from rfl]
      rw [hsb]
      rfl
    have hdl2 : (InvIndex.build docs).docLenOf d0 = (preprocess text).1.length := by
      rw [InvIndex.docLenOf]
      rw [show (InvIndex.build docs).doc_len
            = (docs.foldl (fun i p => addDoc i p.1 p.2) ⟨[], [], 0, []⟩).doc_len from rfl]
      rw [hdl]
      rfl
    refine ⟨?_, ?_, ?_⟩
    · rw [hsb2]
      exact boundsGo_contiguous _ _
    · rw [hsb2]
      exact boundsGo_posWidth _ _
    · rw [hsb2, hdl2, boundsGo_width, preprocess_flat_eq]
      norm_cast
      exact (List.length_flatten _).symm

set_option maxRecDepth 10000 in
/-- C6 witness: the build invariants instantiated on a concrete two-document
collection with distinct ids (one two-sentence document, one single-sentence
document). -/
theorem claim_C6_witness :
    (∀ t pl, (t, pl) ∈ (InvIndex.build [(1, "Ab cd. Ef ab!"), (2, "gh")]).postings →
      pl ≠ [] ∧ List.Chain' (· < ·) (pl.map Prod.fst)
        ∧ ∀ q ∈ pl, List.Chain' (· < ·) q.2)
    ∧ ∀ d, d ∈ ([(1, "Ab cd. Ef ab!"), (2, "gh")].map Prod.fst : List ℕ) →
        contiguousFrom 0
          ((InvIndex.build [(1, "Ab cd. Ef ab!"), (2, "gh")]).sentence_boundaries d)
        ∧ (∀ se ∈ (InvIndex.build [(1, "Ab cd. Ef ab!"), (2, "gh")]).sentence_boundaries d,
            se.1 ≤ se.2 + 1)
        ∧ (((InvIndex.build [(1, "Ab cd. Ef ab!"), (2, "gh")]).sentence_boundaries d).map
              (fun se => se.2 + 1 - se.1)).sum
            = ((InvIndex.build [(1, "Ab cd. Ef ab!"), (2, "gh")]).docLenOf d : ℤ) :=
  claim_C6 [(1, "Ab cd. Ef ab!"), (2, "gh")] (by decide)


end AeroSearch
